import Mathlib

/-!
Verification development for the gslp superword-level vectorizer search
engine (Solver.cpp, Heuristic.cpp, VectorPack.cpp and friends).

We give a shallow embedding of the per-block data model and of the
Frontier transition system, the seed-pack enumeration, the memoized
heuristic solver, the DP-based bottom-up driver, the UCT node factory and
the UCT run prologue, and prove the specified properties about them.

Modelling conventions:
* every value of the basic block gets a dense integer id (ValueIndex);
  bitsets become finite sets of ids;
* llvm Value pointers that can appear in an operand-pack lane are modelled
  by the VLane type: a null lane, a Constant, a value foreign to the block
  (an argument or an instruction of another block), or an instruction of
  the block identified by its id;
* float costs are modelled by rationals (all cost computations in scope
  are sums, min, and one ratio, so no rounding behaviour is involved);
* the TargetTransformInfo cost oracle is an explicit structure of cost
  functions;
* std::sort over interned pointers is modelled by sorting with a fixed
  total order on the pack contents (interning makes pointer order a fixed
  total order on contents); std::binary_search over a sorted range is
  modelled by its specified semantics, a membership test.
-/

/-- One lane of an operand pack or of the ordered values of a vector pack:
a null (don't-care) lane, an llvm Constant, a non-instruction non-constant
value (argument or global), an instruction of another block, or an
in-block instruction given by its scalar id. -/
inductive VLane : Type where
  | undef : VLane
  | const : Nat → VLane
  | arg : Nat → VLane
  | xinst : Nat → VLane
  | inst : Nat → VLane
deriving DecidableEq, Repr

/-- An operand pack is an ordered sequence of lanes (OperandPack in the
source, a SmallVector of Value pointers, possibly null). -/
abbrev OperandPack := List VLane

/-- Reference held by an instruction to one of its users, as seen by the
constructor loop of Frontier: an in-block instruction user (with its id),
an instruction user in another block, or a non-instruction user. -/
inductive UserRef : Type where
  | instIn : Nat → UserRef
  | instOut : UserRef
  | nonInst : UserRef
deriving DecidableEq, Repr

/-- Per-instruction information of the basic block model. -/
structure InstInfo : Type where
  isPhi : Bool
  isStore : Bool
  isLoad : Bool
  operands : List VLane
  users : List UserRef
deriving DecidableEq, Repr

/-- A record of a pattern match (Operation::Match): the matched output
value and the bound input values, plus the in-block intermediate
instructions participating in the match. -/
structure MatchRec : Type where
  output : VLane
  inputs : List VLane
  inner : List Nat
deriving DecidableEq, Repr

/-- An instruction binding of the target catalog (InstBinding): the
operation expected at each lane, and the vector instruction cost reported
by the external cost interface for this binding. -/
structure IBind : Type where
  laneOps : List Nat
  bcost : ℚ
deriving DecidableEq, Repr

/-- The per-block model: the block's instructions in order (the id of an
instruction is its position), the external type oracle for lanes, the two
consecutive-access DAGs as successor maps, the iteration order of the
store DAG keys, the LocalDependenceAnalysis depended sets, the load
layout info (leader and slot id per load), the target catalog, and the
match manager as a function from operation and output value to matches. -/
structure BBlock : Type where
  insts : List InstInfo
  laneTy : VLane → Nat
  loadSucc : Nat → List Nat
  storeSucc : Nat → List Nat
  storeKeys : List Nat
  dep : Nat → Finset Nat
  loadLeader : Nat → Nat
  loadSlotId : Nat → Nat
  bindings : List IBind
  matchesForOutput : Nat → VLane → List MatchRec

/-- Information of the instruction with a given id (out-of-range ids give
an inert default instruction). -/
def BBlock.inst (blk : BBlock) (i : Nat) : InstInfo :=
  blk.insts.getD i ⟨false, false, false, [], []⟩

/-- A vector type as used by the cost oracle: element type of the first
concrete lane (none when every lane is a don't-care) and lane count. -/
structure VecTy : Type where
  scalar : Option Nat
  width : Nat
deriving DecidableEq, Repr

/-- The external TargetTransformInfo cost oracle. -/
structure TTIModel : Type where
  broadcastCost : VecTy → ℚ
  permuteCost : VecTy → ℚ
  insertCost : VecTy → Nat → ℚ
  extractCost : VecTy → Nat → ℚ
  memLoadCost : VecTy → ℚ
  memStoreCost : VecTy → ℚ

/-- llvm::is_splat on a lane sequence: non-empty and all lanes equal. -/
def isSplat (OP : OperandPack) : Bool :=
  match OP with
  | [] => false
  | x :: xs => xs.all (fun y => y = x)

/-- isConstantPack: every non-null lane is a Constant (VectorPack.cpp). -/
def isConstantPack (OP : OperandPack) : Bool :=
  OP.all (fun l =>
    match l with
    | VLane.undef => true
    | VLane.const _ => true
    | _ => false)

/-- getVectorType of an operand pack (VectorPack.cpp): element type of
the first non-null lane, width the number of lanes. -/
def vecTyOP (blk : BBlock) (OP : OperandPack) : VecTy :=
  ⟨(OP.find? (fun l => l ≠ VLane.undef)).map blk.laneTy, OP.length⟩

/-- A vector pack (VectorPack, tagged variant flattened into flags): the
output lanes in order, the covered scalar-id bitset, the union of the
lanes' depended sets, the operand packs, the vector instruction cost and
producing cost, and the instructions the pack replaces when committed. -/
structure VectorPack : Type where
  isStore : Bool
  isLoad : Bool
  orderedValues : List VLane
  elements : Finset Nat
  depended : Finset Nat
  operandPacks : List OperandPack
  cost : ℚ
  producingCost : ℚ
  replaced : List Nat
deriving DecidableEq

/-- getVectorType of a vector pack (VectorPack.cpp): the element count is
the popcount of the elements bitset and the scalar type comes from the
first element value in id order. -/
def vecTyVP (blk : BBlock) (VP : VectorPack) : VecTy :=
  ⟨VP.elements.min.map (fun i => blk.laneTy (VLane.inst i)), VP.elements.card⟩

/-- The Frontier search state: backward cursor position (0 points at the
block's last instruction, length is rend), the free / unresolved-scalar /
usable bitsets, and the unresolved operand packs kept sorted by interned
pointer. -/
structure Frontier : Type where
  rpos : Nat
  free : Finset Nat
  unresolvedScalars : Finset Nat
  usable : Finset Nat
  unresolvedPacks : List OperandPack
deriving DecidableEq

/-- Frontier::isUsable. -/
def Frontier.isUsable (F : Frontier) (i : Nat) : Bool :=
  decide (i ∈ F.usable)

/-- Frontier::isFree. -/
def Frontier.isFree (F : Frontier) (i : Nat) : Bool :=
  decide (i ∈ F.free)

/-- Frontier::numUnresolvedScalars. -/
def Frontier.numUnresolvedScalars (F : Frontier) : Nat :=
  F.unresolvedScalars.card

/-- An injective encoding of lanes into naturals, used to model the fixed
total pointer order that interning imposes on canonical operand packs. -/
def encVLane : VLane → Nat
  | VLane.undef => 0
  | VLane.const c => 5 * c + 1
  | VLane.arg n => 5 * n + 2
  | VLane.xinst n => 5 * n + 3
  | VLane.inst i => 5 * i + 4

/-- Encoding of an operand pack for the model of pointer order. -/
def opKey (OP : OperandPack) : List Nat :=
  OP.map encVLane

/-- Lexicographic comparison of encodings; the model of the pointer order
on interned operand packs. -/
def keyLE : List Nat → List Nat → Bool
  | [], _ => true
  | _ :: _, [] => false
  | a :: as, b :: bs => if a < b then true else if b < a then false else keyLE as bs

/-- Boolean order on operand packs used to keep UnresolvedPacks sorted
(std::sort over interned pointers). -/
def opLE (a b : OperandPack) : Bool :=
  keyLE (opKey a) (opKey b)

/-- Insert an element into a sorted list (the model of std::sort is a
structurally recursive insertion sort producing a sorted permutation). -/
def insertSorted {α : Type} (le : α → α → Bool) (x : α) : List α → List α
  | [] => [x]
  | y :: ys => if le x y then x :: y :: ys else y :: insertSorted le x ys

/-- Insertion sort with a boolean comparator; the model of std::sort (a
sorted permutation of the input). -/
def sortBy {α : Type} (le : α → α → Bool) : List α → List α
  | [] => []
  | x :: xs => insertSorted le x (sortBy le xs)

/-- std::sort of the unresolved packs by (the model of) pointer order. -/
def sortPacks (l : List OperandPack) : List OperandPack :=
  sortBy opLE l

/-- remove(UnresolvedPacks, ResolvedPackIds): drop the entries at the
recorded indices. -/
def removeIndices {α : Type} (l : List α) (ids : List Nat) : List α :=
  (l.enum.filter (fun p => !(ids.contains p.fst))).map Prod.snd

/-- Whether the per-instruction loop of the Frontier constructor marks
the instruction as an unresolved scalar: it has an instruction user in
another block. -/
def ctorUnresolved (info : InstInfo) : Bool :=
  info.users.any (fun u => u = UserRef.instOut)

/-- Whether the per-instruction loop of the Frontier constructor marks
the instruction as usable: no instruction user inside the block
(AllUsersResolved stays true), or a phi. -/
def ctorUsable (info : InstInfo) : Bool :=
  info.users.all (fun u =>
    match u with
    | UserRef.instIn _ => false
    | _ => true) || info.isPhi

/-- One iteration of the constructor loop of Frontier::Frontier. -/
def initStep (F : Frontier) (p : Nat × InstInfo) : Frontier :=
  let urs :=
    if ctorUnresolved p.snd then insert p.fst F.unresolvedScalars
    else F.unresolvedScalars
  let us := if ctorUsable p.snd then insert p.fst F.usable else F.usable
  { F with unresolvedScalars := urs, usable := us }

/-- Frontier construction (Frontier::Frontier in Solver.cpp): the cursor
starts at the block's last instruction, everything is free, an
instruction with an out-of-block instruction user is an unresolved
scalar, and an instruction all of whose instruction users are
out-of-block (or a phi) is usable. -/
def initialFrontier (blk : BBlock) : Frontier :=
  let n := blk.insts.length
  blk.insts.enum.foldl initStep ⟨0, Finset.range n, ∅, ∅, []⟩

/-- Whether every in-block instruction user of instruction i is frozen
with respect to the given free set (the usability condition checked in
Frontier::freezeOneInst). -/
def allUsersFrozen (blk : BBlock) (free : Finset Nat) (i : Nat) : Bool :=
  (blk.inst i).users.all (fun u =>
    match u with
    | UserRef.instIn j => decide (j ∉ free)
    | _ => true)

/-- One iteration of the operand loop of Frontier::freezeOneInst: a
still-free in-block operand becomes usable when all of its in-block users
are frozen. -/
def usableStep (blk : BBlock) (free2 : Finset Nat) (us : Finset Nat)
    (lane : VLane) : Finset Nat :=
  match lane with
  | VLane.inst oi =>
      if oi ∈ free2 ∧ allUsersFrozen blk free2 oi then insert oi us else us
  | _ => us

/-- Frontier::freezeOneInst: clear the instruction's free, unresolved
scalar and usable bits, then mark any of its still-free in-block operands
whose users are now all frozen as usable. -/
def freezeOneInst (blk : BBlock) (F : Frontier) (I : Nat) : Frontier :=
  let free2 := F.free.erase I
  let urs2 := F.unresolvedScalars.erase I
  let us1 := F.usable.erase I
  let us2 := (blk.inst I).operands.foldl (usableStep blk free2) us1
  { F with free := free2, unresolvedScalars := urs2, usable := us2 }

/-- First cursor position at or after k whose instruction is free; the
block length (rend) if none. -/
def findFreeRPos (n : Nat) (free : Finset Nat) (k : Nat) : Nat :=
  ((List.range' k (n - k)).find? (fun j => decide (n - 1 - j ∈ free))).getD n

/-- Frontier::advanceBBIt: advance the backward cursor past frozen
positions. -/
def advanceBBIt (blk : BBlock) (F : Frontier) : Frontier :=
  { F with rpos := findFreeRPos blk.insts.length F.free F.rpos }

/-- Frontier::getNextFreeInst: the instruction id under the cursor. -/
def getNextFreeInst (blk : BBlock) (F : Frontier) : Option Nat :=
  if F.rpos < blk.insts.length then some (blk.insts.length - 1 - F.rpos) else none

/-- Frontier::resolved: no lane of the pack is a still-free in-block
instruction (null, Constant and foreign lanes never block resolution). -/
def resolvedOP (free : Finset Nat) (OP : OperandPack) : Bool :=
  OP.all (fun l =>
    match l with
    | VLane.inst i => decide (i ∉ free)
    | _ => true)

/-- The insert cost charged per lane by this program: twice the cost the
TTI oracle reports for an InsertElement (a uniform factor of 2 applied at
every insertion site of the source: Solver.cpp lines 410, 537, 1521 and
the C_Insert = 2 constant of Heuristic.cpp). -/
def insertCharge (tti : TTIModel) (ty : VecTy) (lane : Nat) : ℚ :=
  2 * tti.insertCost ty lane

/-- The per-lane insert payments made by advanceInplace(Instruction)
for one unresolved pack: one insert charge per lane equal to the
scalarized instruction. -/
def laneInsertSum (blk : BBlock) (tti : TTIModel) (I : Nat) (OP : OperandPack) : ℚ :=
  (OP.enum.map (fun p =>
    if p.snd = VLane.inst I then insertCharge tti (vecTyOP blk OP) p.fst else 0)).sum

/-- One step of the unresolved-pack scan of advanceInplace(Instruction):
a splat of the scalarized instruction pays the broadcast cost and is
marked resolved; otherwise each matching lane pays the insert charge and
the pack is marked resolved iff the resolved predicate now holds. -/
def instPackScanStep (blk : BBlock) (tti : TTIModel) (I : Nat) (free : Finset Nat)
    (acc : ℚ × List Nat) (p : Nat × OperandPack) : ℚ × List Nat :=
  let OP := p.snd
  if isSplat OP ∧ OP.head? = some (VLane.inst I) then
    (acc.fst + tti.broadcastCost (vecTyOP blk OP), acc.snd ++ [p.fst])
  else
    let c2 := acc.fst + laneInsertSum blk tti I OP
    if resolvedOP free OP then (c2, acc.snd ++ [p.fst]) else (c2, acc.snd)

/-- The unresolved-pack scan loop of advanceInplace(Instruction). -/
def instPackScan (blk : BBlock) (tti : TTIModel) (I : Nat) (free : Finset Nat)
    (packs : List OperandPack) : ℚ × List Nat :=
  packs.enum.foldl (instPackScanStep blk tti I free) (0, [])

/-- One iteration of the operand loop at the end of
advanceInplace(Instruction): a still-free in-block operand becomes an
unresolved scalar. -/
def ursStep (free : Finset Nat) (urs : Finset Nat) (lane : VLane) : Finset Nat :=
  match lane with
  | VLane.inst i2 => if i2 ∈ free then insert i2 urs else urs
  | _ => urs

/-- The unresolved-scalar marking of advanceInplace(Instruction): every
still-free in-block operand of the scalarized instruction becomes an
unresolved scalar. -/
def markUnresolvedOperands (blk : BBlock) (F : Frontier) (I : Nat) : Finset Nat :=
  (blk.inst I).operands.foldl (ursStep F.free) F.unresolvedScalars

/-- Frontier::advanceInplace(Instruction*): freeze the instruction,
advance the cursor, scan the unresolved packs paying broadcast or insert
costs and recording resolved packs, mark free operands as unresolved
scalars, remove the resolved packs and re-sort. Returns the successor
frontier and the incremental cost. -/
def advanceInst (blk : BBlock) (tti : TTIModel) (F : Frontier) (I : Nat) :
    Frontier × ℚ :=
  let F1 := advanceBBIt blk (freezeOneInst blk F I)
  let sc := instPackScan blk tti I F1.free F1.unresolvedPacks
  let urs2 := markUnresolvedOperands blk F1 I
  ({ F1 with
      unresolvedScalars := urs2,
      unresolvedPacks := sortPacks (removeIndices F1.unresolvedPacks sc.snd) },
    sc.fst)

/-- Frontier::resolveOperandPack: whether the committed pack produces at
least one lane of the operand pack. -/
def producedBy (VP : VectorPack) (OP : OperandPack) : Bool :=
  OP.any (fun l =>
    match l with
    | VLane.inst i => decide (i ∈ VP.elements)
    | _ => false)

/-- getGatherCost (Solver.cpp): zero for a constant pack; with equal
sizes, zero when the pack's ordered values equal the operand pack
element-wise and the single-source permute cost when they are a
permutation of it; the fixed constant 2 otherwise. -/
def getGatherCost (blk : BBlock) (tti : TTIModel) (VP : VectorPack)
    (OP : OperandPack) : ℚ :=
  if isConstantPack OP then 0
  else if VP.orderedValues.length = OP.length then
    if VP.orderedValues = OP then 0
    else if VP.orderedValues.Perm OP then tti.permuteCost (vecTyVP blk VP)
    else 2
  else 2

/-- The scalar-extract payments of advanceInplace(const VectorPack*): an
extract cost for every output lane that is an unresolved scalar.  (For a
store pack the source leaves the vector type uninitialized because no
store is ever an unresolved scalar; the model passes the pack's vector
type unconditionally.) -/
def extractSum (blk : BBlock) (tti : TTIModel) (F : Frontier) (VP : VectorPack) : ℚ :=
  (VP.orderedValues.enum.map (fun p =>
    match p.snd with
    | VLane.inst i =>
        if i ∈ F.unresolvedScalars then
          tti.extractCost (vecTyVP blk VP) p.fst
        else 0
    | _ => 0)).sum

/-- The gather scan of advanceInplace(const VectorPack*): skipped
entirely for store packs; otherwise each unresolved pack with a lane
produced by the committed pack pays the gather cost and is recorded as
resolved when the resolved predicate holds. -/
def gatherScan (blk : BBlock) (tti : TTIModel) (free : Finset Nat) (VP : VectorPack)
    (packs : List OperandPack) : ℚ × List Nat :=
  if VP.isStore then (0, [])
  else
    packs.enum.foldl
      (fun acc p =>
        if producedBy VP p.snd then
          let c2 := acc.fst + getGatherCost blk tti VP p.snd
          if resolvedOP free p.snd then (c2, acc.snd ++ [p.fst]) else (c2, acc.snd)
        else acc)
      (0, [])

/-- The insert payments for one operand pack of the committed pack:
foreign (out-of-block or non-instruction, non-constant) lanes pay the
insert charge. -/
def foreignInsertSum (blk : BBlock) (tti : TTIModel) (opk : OperandPack) : ℚ :=
  (opk.enum.map (fun p =>
    match p.snd with
    | VLane.arg _ => insertCharge tti (vecTyOP blk opk) p.fst
    | VLane.xinst _ => insertCharge tti (vecTyOP blk opk) p.fst
    | _ => 0)).sum

/-- The operand-pack registration loop of advanceInplace(const
VectorPack*): pay foreign-lane inserts, and append each operand pack that
is not resolved and not already tracked (std::binary_search on the sorted
vector, modelled as membership in the current list). -/
def operandScan (blk : BBlock) (tti : TTIModel) (free : Finset Nat) (VP : VectorPack)
    (base : List OperandPack) : ℚ × List OperandPack :=
  VP.operandPacks.foldl
    (fun acc opk =>
      let c2 := acc.fst + foreignInsertSum blk tti opk
      if ¬ resolvedOP free opk = true ∧ opk ∉ base ++ acc.snd then
        (c2, acc.snd ++ [opk])
      else (c2, acc.snd))
    (0, [])

/-- Sort instruction ids so that later block positions come first, the
order in which advanceInplace(const VectorPack*) freezes the replaced
instructions. -/
def sortDesc (l : List Nat) : List Nat :=
  sortBy (fun a b => decide (b ≤ a)) l

/-- Frontier::advanceInplace(const VectorPack*): pay the pack cost and
the extract costs, freeze the replaced instructions in reverse block
order, advance the cursor, run the gather scan over the unresolved packs
(skipped for stores), pay foreign inserts of and register the new
operand packs, remove the resolved packs and re-sort. -/
def advanceVP (blk : BBlock) (tti : TTIModel) (F : Frontier) (VP : VectorPack) :
    Frontier × ℚ :=
  let F1 := advanceBBIt blk ((sortDesc VP.replaced).foldl (freezeOneInst blk) F)
  let gs := gatherScan blk tti F1.free VP F1.unresolvedPacks
  let os := operandScan blk tti F1.free VP F1.unresolvedPacks
  ({ F1 with
      unresolvedPacks :=
        sortPacks (removeIndices (F1.unresolvedPacks ++ os.snd) gs.snd) },
    VP.cost + extractSum blk tti F VP + gs.fst + os.fst)

/-- A shuffle transition (ShuffleTask; the class itself is declared in a
header that is not part of the sources, modelled from the spec: replace
an unresolved operand pack by a list of shuffled inputs and pay a shuffle
cost). -/
structure ShuffleTask : Type where
  output : OperandPack
  inputs : List OperandPack
  shCost : ℚ
deriving DecidableEq

/-- Frontier::advanceInplace(ShuffleTask): remove the output pack, add
the input packs, re-sort, and pay the task's cost. -/
def advanceShuffle (F : Frontier) (ST : ShuffleTask) : Frontier × ℚ :=
  ({ F with
      unresolvedPacks := sortPacks (F.unresolvedPacks.erase ST.output ++ ST.inputs) },
    ST.shCost)

/-- checkIndependence (declared in Packer.h, which is not part of the
sources; modelled from the spec: the lane elements of a pack must be
pairwise distinct and pairwise independent, and a new lane may neither
depend on an already-packed value nor be depended on by one).  Here
elements is the id set of the pack built so far and depended the union of
the depended sets of its members. -/
def checkIndependence (dep : Nat → Finset Nat) (i : Nat)
    (elements depended : Finset Nat) : Bool :=
  decide (i ∉ elements) && decide (i ∉ depended) && decide (dep i ∩ elements = ∅)

/-- The depth-first chain enumeration of getSeedMemPacks (Solver.cpp): a
chain of the requested length is emitted; otherwise every successor of
the last access in the consecutive-access DAG that passes the
independence check extends the chain.  The fuel argument bounds the
recursion depth; the enumeration adds one access per level, so fuel VL
suffices. -/
def enumMemChains (succ : Nat → List Nat) (dep : Nat → Finset Nat) (VL : Nat) :
    Nat → List Nat → Finset Nat → Finset Nat →
    List (List Nat × Finset Nat × Finset Nat)
  | 0, accs, elems, depd =>
    if accs.length = VL then [(accs, elems, depd)] else []
  | fuel + 1, accs, elems, depd =>
    if accs.length = VL then [(accs, elems, depd)]
    else
      match accs.getLast? with
      | none => []
      | some last =>
          ((succ last).filter (fun nxt => checkIndependence dep nxt elems depd)).flatMap
            (fun nxt =>
              enumMemChains succ dep VL fuel (accs ++ [nxt]) (insert nxt elems)
                (depd ∪ dep nxt))

/-- getSeedMemPacks (Solver.cpp), stated on the enumerated access chains
together with their accumulated elements and depended bitsets (the chain
is then handed to the createMemPack factory lane for lane). -/
def getSeedMemChains (succ : Nat → List Nat) (dep : Nat → Finset Nat)
    (A : Nat) (VL : Nat) : List (List Nat × Finset Nat × Finset Nat) :=
  enumMemChains succ dep VL VL [A] {A} (dep A)

/-- The value operand of a store instruction (getValueOperand, the first
operand). -/
def storedVal (blk : BBlock) (s : Nat) : VLane :=
  (blk.inst s).operands.headD VLane.undef

/-- VectorPackContext::createStorePack (the context factory is not part
of the sources; modelled from the spec and VectorPack.cpp: ordered values
are the stores, the single operand pack collects the stored values, the
cost is the target memory-op cost of the stored vector type, and the
replaced instructions are the ordered values). -/
def createStorePack (blk : BBlock) (tti : TTIModel) (stores : List Nat)
    (elements depended : Finset Nat) : VectorPack :=
  let vt : VecTy :=
    ⟨stores.head?.map (fun s => blk.laneTy (storedVal blk s)), stores.length⟩
  { isStore := true, isLoad := false,
    orderedValues := stores.map VLane.inst,
    elements := elements, depended := depended,
    operandPacks := [stores.map (storedVal blk)],
    cost := tti.memStoreCost vt, producingCost := tti.memStoreCost vt,
    replaced := stores }

/-- VectorPackContext::createLoadPack (modelled like createStorePack:
lanes may be don't-cares, a load pack needs no operand packs, cost is the
target memory-op cost, replaced instructions are the concrete lanes). -/
def createLoadPack (blk : BBlock) (tti : TTIModel) (loads : List (Option Nat))
    (elements depended : Finset Nat) : VectorPack :=
  let vt : VecTy :=
    ⟨(loads.filterMap id).head?.map (fun l => blk.laneTy (VLane.inst l)),
      loads.length⟩
  { isStore := false, isLoad := true,
    orderedValues := loads.map (fun o =>
      match o with
      | some l => VLane.inst l
      | none => VLane.undef),
    elements := elements, depended := depended,
    operandPacks := [],
    cost := tti.memLoadCost vt, producingCost := tti.memLoadCost vt,
    replaced := loads.filterMap id }

/-- VectorPackContext::createVectorPack for a general pack (modelled from
the spec: ordered values are the match outputs, one operand pack per
input slot collecting each lane's bound input, and the replaced
instructions are the elements plus every in-block intermediate
instruction participating in a match). -/
def createVectorPack (_blk : BBlock) (_tti : TTIModel) (lanes : List MatchRec)
    (elements depended : Finset Nat) (ib : IBind) : VectorPack :=
  let nIn := (lanes.head?.map (fun m => m.inputs.length)).getD 0
  { isStore := false, isLoad := false,
    orderedValues := lanes.map (fun m => m.output),
    elements := elements, depended := depended,
    operandPacks := (List.range nIn).map (fun k =>
      lanes.map (fun m => m.inputs.getD k VLane.undef)),
    cost := ib.bcost, producingCost := ib.bcost,
    replaced := (elements ∪ (lanes.flatMap (fun m => m.inner)).toFinset).sort (· ≤ ·) }

/-- The store-chain enumeration of getSeedStorePacks (Solver.cpp): like
the seed enumeration but each extension must also be usable in the
frontier. -/
def enumSeedStores (blk : BBlock) (tti : TTIModel) (F : Frontier) (VL : Nat) :
    Nat → List Nat → Finset Nat → Finset Nat → List VectorPack
  | fuel, stores, elems, depd =>
    if stores.length = VL then [createStorePack blk tti stores elems depd]
    else
      match fuel, stores.getLast? with
      | 0, _ => []
      | _ + 1, none => []
      | fuel + 1, some last =>
          ((blk.storeSucc last).filter (fun nxt =>
              F.isUsable nxt && checkIndependence blk.dep nxt elems depd)).flatMap
            (fun nxt =>
              enumSeedStores blk tti F VL fuel (stores ++ [nxt]) (insert nxt elems)
                (depd ∪ blk.dep nxt))

/-- getSeedStorePacks (Solver.cpp): empty unless the leading store is
usable. -/
def getSeedStorePacks (blk : BBlock) (tti : TTIModel) (F : Frontier)
    (SI : Nat) (VL : Nat) : List VectorPack :=
  if F.isUsable SI then enumSeedStores blk tti F VL VL [SI] {SI} (blk.dep SI)
  else []

/-- getSeedStorePack (Solver.cpp): the first seed if any. -/
def getSeedStorePack (blk : BBlock) (tti : TTIModel) (F : Frontier)
    (SI : Nat) (VL : Nat) : Option VectorPack :=
  (getSeedStorePacks blk tti F SI VL).head?

/-- llvm::PowerOf2Ceil. -/
def powOf2Ceil (n : Nat) : Nat :=
  if n = 0 then 0 else 2 ^ Nat.clog 2 n

/-- The chain walk of findExtendingLoadPack (Solver.cpp): starting from a
lead load, follow the load DAG, taking the next load of the load set when
one is a successor, inserting a don't-care lane and skipping to the first
successor otherwise, until the load set is covered, the chain ends, or an
independence check fails.  The fuel bounds the walk (the source relies on
the acyclicity of the access DAG). -/
def extLoadWalk (blk : BBlock) (loadSet : Finset Nat) :
    Nat → Nat → List (Option Nat) → Finset Nat → Finset Nat →
    List (Option Nat) × Finset Nat × Finset Nat
  | 0, _, loads, elems, depd => (loads, elems, depd)
  | fuel + 1, cur, loads, elems, depd =>
    if elems.card < loadSet.card then
      match blk.loadSucc cur with
      | [] => (loads, elems, depd)
      | s0 :: rest =>
          match (s0 :: rest).find? (fun nxt => decide (nxt ∈ loadSet)) with
          | none => extLoadWalk blk loadSet fuel s0 (loads ++ [none]) elems depd
          | some nxt =>
              if checkIndependence blk.dep nxt elems depd then
                extLoadWalk blk loadSet fuel nxt (loads ++ [some nxt])
                  (insert nxt elems) (depd ∪ blk.dep nxt)
              else (loads, elems, depd)
    else (loads, elems, depd)

/-- Pad a lane list with don't-cares up to the requested width. -/
def padLoads (l : List (Option Nat)) (n : Nat) : List (Option Nat) :=
  l ++ List.replicate (n - l.length) none

/-- findExtendingLoadPack (Solver.cpp): try every lane of the operand
pack as the leading load; the first walk that covers the whole load set
yields a load pack padded to the next power of two. -/
def findExtendingLoadPack (blk : BBlock) (tti : TTIModel) (OP : OperandPack) :
    Option VectorPack :=
  let instLanes := OP.filterMap (fun l =>
    match l with
    | VLane.inst i => some i
    | _ => none)
  let loadSet := instLanes.toFinset
  instLanes.findSome? (fun lead =>
    let r := extLoadWalk blk loadSet (blk.insts.length + OP.length + 1) lead
      [some lead] {lead} (blk.dep lead)
    if r.snd.fst.card = loadSet.card then
      some (createLoadPack blk tti (padLoads r.fst (powOf2Ceil OP.length))
        r.snd.fst r.snd.snd)
    else none)

/-- The slot table of the load-coalescing heuristic (class SlotSet in
Solver.cpp). -/
structure SlotSet : Type where
  slots : List (Option Nat)
  slotMin : Nat
  slotMax : Nat
  numElems : Nat
  hasValue : Bool
deriving DecidableEq

/-- SlotSet::try_insert: grow the table as needed; insertion succeeds on
an empty slot or a slot already holding the same load, updating the
bounds and the element count as the source does. -/
def slotTryInsert (S : SlotSet) (i : Nat) (li : Nat) : Bool × SlotSet :=
  let slots1 :=
    if S.slots.length ≤ i then S.slots ++ List.replicate (i + 1 - S.slots.length) none
    else S.slots
  match slots1.getD i none with
  | some x =>
      if x = li then
        (true,
          { slots := slots1.set i (some li),
            slotMin := if S.hasValue then min i S.slotMin else i,
            slotMax := if S.hasValue then max i S.slotMax else i,
            numElems := S.numElems + 1, hasValue := true })
      else (false, S)
  | none =>
      (true,
        { slots := slots1.set i (some li),
          slotMin := if S.hasValue then min i S.slotMin else i,
          slotMax := if S.hasValue then max i S.slotMax else i,
          numElems := S.numElems + 1, hasValue := true })

/-- SlotSet::utilization. -/
def slotUtil (S : SlotSet) : ℚ :=
  (S.numElems : ℚ) / ((S.slotMax : ℚ) - (S.slotMin : ℚ) + 1)

/-- Insert a list of loads into a slot table, reporting whether every
insertion succeeded (the Coalesced flag of tryCoalesceLoads). -/
def slotInsertAll (blk : BBlock) (S : SlotSet) (loads : List Nat) : Bool × SlotSet :=
  loads.foldl
    (fun acc li =>
      let r := slotTryInsert acc.snd (blk.loadSlotId li) li
      (acc.fst && r.fst, r.snd))
    (true, S)

/-- tryCoalesceLoads (Solver.cpp): starting from the main pack's slots,
fold in every other load pack that addresses the same object, is
independent, fits the free slots, and strictly improves utilization; the
coalesced pack covers the slot range from the minimum up to (excluding)
the maximum slot, as in the source loop. -/
def tryCoalesceLoads (blk : BBlock) (tti : TTIModel) (mainPack : VectorPack)
    (others : List VectorPack) : Option VectorPack :=
  if mainPack.orderedValues.length = mainPack.elements.card then none
  else
    match (mainPack.elements.sort (· ≤ ·)).head? with
    | none => none
    | some someLoad =>
        let leader := blk.loadLeader someLoad
        let slots0 := (slotInsertAll blk ⟨[], 0, 0, 0, false⟩
          (mainPack.elements.sort (· ≤ ·))).snd
        let st := others.foldl
          (fun (acc : SlotSet × Finset Nat × Finset Nat) other =>
            match other.orderedValues.head? with
            | some (VLane.inst o0) =>
                if blk.loadLeader o0 ≠ leader then acc
                else if ¬ (acc.snd.snd ∩ other.elements = ∅) ∨
                    ¬ (other.depended ∩ acc.snd.fst = ∅) then acc
                else
                  let r := slotInsertAll blk acc.fst (other.elements.sort (· ≤ ·))
                  if r.fst ∧ slotUtil acc.fst < slotUtil r.snd then
                    (r.snd, acc.snd.fst ∪ other.elements,
                      acc.snd.snd ∪ other.depended)
                  else acc
            | _ => acc)
          (slots0, mainPack.elements, mainPack.depended)
        if st.snd.fst = mainPack.elements then none
        else
          let loads := (List.range' st.fst.slotMin (st.fst.slotMax - st.fst.slotMin)).map
            (fun i => st.fst.slots.getD i none)
          some (createLoadPack blk tti loads st.snd.fst st.snd.snd)

/-- The per-pack lane scan of findExtensionPacks2 (Solver.cpp): a null
lane records an undef, a non-instruction lane clears the all-loads flag,
an out-of-block instruction or a non-usable or non-independent lane makes
the pack inextensible, and an in-block lane is accumulated.  Returns the
accumulated elements and depended sets and the all-loads and has-undef
flags, or none when inextensible. -/
def scanLanes (blk : BBlock) (F : Frontier) :
    List VLane → Finset Nat → Finset Nat → Bool → Bool →
    Option (Finset Nat × Finset Nat × Bool × Bool)
  | [], elems, depd, allLoads, hasUndef => some (elems, depd, allLoads, hasUndef)
  | l :: rest, elems, depd, allLoads, hasUndef =>
    match l with
    | VLane.undef => scanLanes blk F rest elems depd allLoads true
    | VLane.const _ => scanLanes blk F rest elems depd false hasUndef
    | VLane.arg _ => scanLanes blk F rest elems depd false hasUndef
    | VLane.xinst _ => none
    | VLane.inst i =>
        if ¬ F.isUsable i = true then none
        else if ¬ checkIndependence blk.dep i elems depd = true then none
        else
          scanLanes blk F rest (insert i elems) (depd ∪ blk.dep i)
            (allLoads && (blk.inst i).isLoad) hasUndef

/-- Collect the first match for each lane of the operand pack against the
binding's lane operations, stopping at the first lane with no match (the
inner loop of the general branch of findExtensionPacks2). -/
def collectLanes (blk : BBlock) : List (Nat × VLane) → List MatchRec
  | [] => []
  | (op, v) :: rest =>
    match (blk.matchesForOutput op v).head? with
    | none => []
    | some m => m :: collectLanes blk rest

/-- The contribution of one unresolved pack to findExtensionPacks2:
either load extensions (through findExtendingLoadPack, when every
concrete lane is an in-block load) or general extensions (one per catalog
binding of matching arity whose every lane has a match). -/
def extForOP (blk : BBlock) (tti : TTIModel) (F : Frontier) (OP : OperandPack) :
    List VectorPack × List VectorPack :=
  match scanLanes blk F OP ∅ ∅ true false with
  | none => ([], [])
  | some (elems, depd, allLoads, hasUndef) =>
    if allLoads then
      match findExtendingLoadPack blk tti OP with
      | some vp => ([], [vp])
      | none => ([], [])
    else if hasUndef then ([], [])
    else
      (blk.bindings.filterMap (fun ib =>
        if ib.laneOps.length = OP.length then
          let lanes := collectLanes blk (ib.laneOps.zip OP)
          if lanes.length = OP.length then
            some (createVectorPack blk tti lanes elems depd ib)
          else none
        else none), [])

/-- findExtensionPacks2 (Solver.cpp): scan the unresolved packs, stopping
once a general (non-load) extension exists; if any general extension was
found return those, else return the first load extension, preceded by its
coalescing with the remaining load extensions when that succeeds. -/
def findExtensionPacks2 (blk : BBlock) (tti : TTIModel) (F : Frontier) :
    List VectorPack :=
  let step := F.unresolvedPacks.foldl
    (fun (acc : List VectorPack × List VectorPack) OP =>
      if acc.fst ≠ [] then acc
      else
        let r := extForOP blk tti F OP
        (acc.fst ++ r.fst, acc.snd ++ r.snd))
    ([], [])
  if step.fst ≠ [] then step.fst
  else
    match step.snd with
    | [] => []
    | lvp :: restL =>
      match tryCoalesceLoads blk tti lvp restL with
      | some co => [co, lvp]
      | none => [lvp]

/-- The per-pack walk of estimateAllScalarCost (Solver.cpp): free
in-block lanes pay insert charges, except that a splat detected at lane 0
pays one broadcast and stops. -/
def estScalarGo (blk : BBlock) (tti : TTIModel) (F : Frontier) (OP : OperandPack)
    (vt : VecTy) : List (Nat × VLane) → ℚ
  | [] => 0
  | (idx, l) :: rest =>
    match l with
    | VLane.inst i =>
        if i ∈ F.free then
          if idx = 0 ∧ isSplat OP = true then tti.broadcastCost vt
          else insertCharge tti vt idx + estScalarGo blk tti F OP vt rest
        else estScalarGo blk tti F OP vt rest
    | _ => estScalarGo blk tti F OP vt rest

/-- estimateAllScalarCost (Solver.cpp): insertion cost of gathering every
unresolved pack out of scalars. -/
def estimateAllScalarCost (blk : BBlock) (tti : TTIModel) (F : Frontier) : ℚ :=
  (F.unresolvedPacks.map (fun OP =>
    estScalarGo blk tti F OP (vecTyOP blk OP) OP.enum)).sum

/-- DPSolver::solveImpl / solve (Solver.cpp): the baseline is the
all-scalar estimate with no extension; every extension pack is committed,
the successor frontier is solved recursively, and the strictly cheapest
total is kept.  Memoization caches a pure function and is dropped; the
fuel bounds the recursion depth (each committed extension freezes at
least one instruction in the executions the source performs). -/
def dpSolve (blk : BBlock) (tti : TTIModel) : Nat → Frontier → ℚ × Option VectorPack
  | 0, F => (estimateAllScalarCost blk tti F, none)
  | fuel + 1, F =>
    (findExtensionPacks2 blk tti F).foldl
      (fun sol vp =>
        let r := advanceVP blk tti F vp
        let total := (dpSolve blk tti fuel r.fst).fst + r.snd
        if sol.fst > total then (total, some vp) else sol)
      (estimateAllScalarCost blk tti F, none)

/-- The store chain length memo of optimizeBottomUp (GetChainLen),
computed with a recursion-depth fuel. -/
def storeChainLen (blk : BBlock) : Nat → Nat → Nat
  | 0, _ => 1
  | fuel + 1, I =>
    match blk.storeSucc I with
    | [] => 1
    | s0 :: rest => ((s0 :: rest).map (storeChainLen blk fuel)).foldl max 0 + 1

/-- The stores of the store DAG sorted by decreasing chain length
(optimizeBottomUp). -/
def sortedStores (blk : BBlock) : List Nat :=
  sortBy (fun a b =>
    decide (storeChainLen blk blk.insts.length b ≤ storeChainLen blk blk.insts.length a))
    blk.storeKeys

/-- VectorPackSet::tryAdd (the class lives outside the sources; modelled
from the spec: adding fails when an element already has a producer). -/
def tryAddPack (ps : List VectorPack) (vp : VectorPack) : List VectorPack :=
  if ps.all (fun q => q.elements ∩ vp.elements = ∅) then ps ++ [vp] else ps

/-- The extension-committing loop of optimizeBottomUp: keep committing
the DP solver's chosen extension until it reports none. -/
def dpCommitLoop (blk : BBlock) (tti : TTIModel) :
    Nat → Frontier × ℚ × List VectorPack → Frontier × ℚ × List VectorPack
  | 0, s => s
  | fuel + 1, s =>
    match (dpSolve blk tti (blk.insts.length + 1) s.fst).snd with
    | none => s
    | some vp =>
        let r := advanceVP blk tti s.fst vp
        dpCommitLoop blk tti fuel (r.fst, s.snd.fst + r.snd, tryAddPack s.snd.snd vp)

/-- The running state of the seed loop of optimizeBottomUp. -/
structure BUState : Type where
  frt : Frontier
  cost : ℚ
  packs : List VectorPack
  bestEst : ℚ

/-- One seed trial of optimizeBottomUp: if a seed store pack exists,
estimate the cost of committing it via the DP solver; when the estimate
beats the best so far, commit it, drain the DP extensions, and reset the
best estimate to the all-scalar estimate of the reached frontier. -/
def phase1Step (blk : BBlock) (tti : TTIModel) (st : BUState) (p : Nat × Nat) :
    BUState :=
  match getSeedStorePack blk tti st.frt p.snd p.fst with
  | none => st
  | some seedVP =>
    let adv := advanceVP blk tti st.frt seedVP
    let sol := dpSolve blk tti (blk.insts.length + 1) adv.fst
    let est := adv.snd + sol.fst
    if est < st.bestEst then
      let r := dpCommitLoop blk tti (blk.insts.length + 1)
        (adv.fst, st.cost + adv.snd, tryAddPack st.packs seedVP)
      { frt := r.fst, cost := r.snd.fst, packs := r.snd.snd,
        bestEst := estimateAllScalarCost blk tti r.fst }
    else st

/-- The loop condition of the final scalarization loop of
optimizeBottomUp. -/
def scalCond (F : Frontier) : Bool :=
  decide (F.numUnresolvedScalars ≠ 0) || decide (F.unresolvedPacks ≠ [])

/-- The first usable instruction in value-id order (the iteration order
of usableInsts over the usable bitset). -/
def firstUsableInst (F : Frontier) : Option Nat :=
  if h : F.usable.Nonempty then some (F.usable.min' h) else none

/-- The final scalarization loop of optimizeBottomUp: while unresolved
scalars or packs remain, scalarize the first usable instruction.  The
fuel bounds the loop; the returned flag records whether the loop reached
its exit condition (the source loops forever when no usable instruction
exists, which the model reports as a false flag). -/
def scalLoop (blk : BBlock) (tti : TTIModel) : Nat → Frontier → ℚ → ℚ × Frontier × Bool
  | 0, F, c => (c, F, !(scalCond F))
  | fuel + 1, F, c =>
    if scalCond F then
      match firstUsableInst F with
      | some I =>
          let r := advanceInst blk tti F I
          scalLoop blk tti fuel r.fst (c + r.snd)
      | none => (c, F, false)
    else (c, F, true)

/-- The lane counts tried by the seed loop of optimizeBottomUp
(Solver.cpp line 1706). -/
def vlList : List Nat := [64, 32, 16, 8, 4, 2]

/-- optimizeBottomUp (the DP-based driver, Solver.cpp lines 1672-1776):
try seed store packs in decreasing chain-length order for each lane
count, drain DP extensions, then scalarize the remaining work.  Returns
the accumulated cost, the committed packs, and whether the final loop
reached its exit condition. -/
def optimizeBottomUp (blk : BBlock) (tti : TTIModel) : ℚ × List VectorPack × Bool :=
  let F0 := initialFrontier blk
  let pairs := vlList.flatMap (fun i => (sortedStores blk).map (fun SI => (i, SI)))
  let st1 := pairs.foldl (phase1Step blk tti) ⟨F0, 0, [], 0⟩
  let r2 := dpCommitLoop blk tti (blk.insts.length + 1) (st1.frt, st1.cost, st1.packs)
  let r3 := scalLoop blk tti (r2.fst.free.card + 1) r2.fst r2.snd.fst
  (r3.fst, r2.snd.snd, r3.snd.snd)

/-- The key by which the DP solver and the UCT node factory compare
frontiers (FrontierHashInfo lives in a header that is not part of the
sources; modelled from the spec: equality over cursor position, free set,
unresolved scalars, and the sorted unresolved packs). -/
def frontKey (F : Frontier) : Nat × Finset Nat × Finset Nat × List OperandPack :=
  (F.rpos, F.free, F.unresolvedScalars, F.unresolvedPacks)

/-- UCTNodeFactory: the frontier-to-node map as an association list (node
identity is modelled by the node id), plus the next fresh id. -/
structure UCTNodeFactory : Type where
  table : List (Frontier × Nat)
  nextId : Nat

/-- UCTNodeFactory::getNode(unique_ptr Frontier): reuse the node of an
equal frontier if one exists, otherwise allocate a fresh node and record
it.  (The PartialPack overload of getNode always allocates a fresh node
and never touches the map.) -/
def factoryGetNode (fac : UCTNodeFactory) (F : Frontier) : Nat × UCTNodeFactory :=
  match fac.table.find? (fun p => decide (frontKey p.fst = frontKey F)) with
  | some p => (p.snd, fac)
  | none => (fac.nextId, ⟨fac.table ++ [(F, fac.nextId)], fac.nextId + 1⟩)

/-- A UCT node as seen by UCTSearch::run: its list of transitions (only
their number matters to the run prologue; each entry carries the
transition cost). -/
structure UCTNodeM : Type where
  transitions : List ℚ

/-- UCTNode::expanded: the node has been expanded iff its transition list
is non-empty (expand asserts emptiness before filling it). -/
def UCTNodeM.expanded (nd : UCTNodeM) : Bool :=
  !nd.transitions.isEmpty

/-- The number of iterations executed by UCTSearch::run (Solver.cpp): the
prologue truncates the requested count to one when the root is expanded
with exactly one transition, and the main for-loop then runs exactly that
many iterations. -/
def uctRunIterCount (root : UCTNodeM) (numIters : Nat) : Nat :=
  if root.expanded && decide (root.transitions.length = 1) then 1 else numIters

/-- C_Splat of Heuristic.cpp. -/
def cSplat : ℚ := 1

/-- C_Insert of Heuristic.cpp. -/
def cInsert : ℚ := 2

/-- C_Perm of Heuristic.cpp. -/
def cPerm : ℚ := 1 / 2

/-- C_Shuffle of Heuristic.cpp. -/
def cShuffle : ℚ := 1 / 2

/-- The environment of the Heuristic solver: the packer's scalar cost
oracle, in-block operand lists, the context's dedup, and the packer's
producer info (elements and producers of an operand pack; all of these
live behind interfaces outside the sources).  vfuel bounds the
scalar-cost recursion (the source recursion terminates because in-block
operand chains are acyclic). -/
structure HModel : Type where
  scalarCost : Nat → ℚ
  operands : Nat → List VLane
  dedup : OperandPack → OperandPack
  prodElements : OperandPack → Finset Nat
  producers : OperandPack → List VectorPack
  vfuel : Nat

/-- Heuristic::getCost(Value*): zero for nulls, constants and values
outside the block; scalar cost plus operand costs for an in-block
instruction. -/
def getCostV (M : HModel) : Nat → VLane → ℚ
  | _, VLane.undef => 0
  | _, VLane.const _ => 0
  | _, VLane.arg _ => 0
  | _, VLane.xinst _ => 0
  | 0, VLane.inst i => M.scalarCost i
  | fuel + 1, VLane.inst i =>
      M.scalarCost i + ((M.operands i).map (getCostV M fuel)).sum

/-- Whether a lane is an llvm Constant. -/
def isConstLane : VLane → Bool
  | VLane.const _ => true
  | _ => false

/-- The baseline of Heuristic::solve: build the pack by explicit
insertion, paying scalar cost plus the insert constant once per distinct
non-null non-constant lane. -/
def hBaseline (M : HModel) (OP : OperandPack) : ℚ :=
  (OP.foldl
    (fun (acc : ℚ × List VLane) l =>
      if l ≠ VLane.undef ∧ ¬ isConstLane l = true ∧ l ∉ acc.snd then
        (acc.fst + getCostV M M.vfuel l + cInsert, acc.snd ++ [l])
      else acc)
    (0, [])).fst

/-- Heuristic::Solution (declared in a header outside the sources;
modelled from the spec and usage: a cost together with the packs
realizing it, updated by taking the minimum cost). -/
structure HSolution : Type where
  cost : ℚ
  packs : List VectorPack

/-- Solution::update: keep the cheaper solution. -/
def solUpdate (s t : HSolution) : HSolution :=
  if t.cost < s.cost then t else s

/-- The candidate option considered by the Inst2Packs scan of
Heuristic::solve, given the already-computed cost of the candidate pack:
an exact-size permutation pays the permute constant, otherwise the cost
is scaled by the elements-to-intersection ratio plus the shuffle
constant. -/
def candOptionVal (OP : OperandPack) (elems : Finset Nat) (extra : ℚ)
    (vp : VectorPack) (cvp : ℚ) : HSolution :=
  if vp.orderedValues.length = elems.card ∧ vp.orderedValues.Perm OP then
    ⟨cvp + cPerm + extra, [vp]⟩
  else
    ⟨cvp * ((elems.card : ℚ) / (((elems ∩ vp.elements).card : ℚ))) + cShuffle + extra,
      [vp]⟩

/-- The Inst2Packs scan of Heuristic::solve: walk the candidate packs of
every element id, skipping duplicates through the visited set and
non-load packs, updating the running solution with each option. -/
def candScanG (OP : OperandPack) (elems : Finset Nat) (extra : ℚ) :
    List (VectorPack × ℚ) → List VectorPack → HSolution → HSolution
  | [], _, sol => sol
  | (vp, c) :: rest, visited, sol =>
    if vp ∈ visited then candScanG OP elems extra rest visited sol
    else if ¬ vp.isLoad = true then candScanG OP elems extra rest (visited ++ [vp]) sol
    else
      candScanG OP elems extra rest (visited ++ [vp])
        (solUpdate sol (candOptionVal OP elems extra vp c))

mutual

/-- Heuristic::getCost(VectorPack*): producing cost plus the solved cost
of every operand pack. -/
def hCostVP (M : HModel) (S : Nat → List VectorPack) : Nat → VectorPack → ℚ
  | 0, VP => VP.producingCost
  | fuel + 1, VP =>
      VP.producingCost + (hSolveCosts M S fuel VP.operandPacks).sum

/-- The solved costs of a list of operand packs. -/
def hSolveCosts (M : HModel) (S : Nat → List VectorPack) :
    Nat → List OperandPack → List ℚ
  | _, [] => []
  | fuel, op :: rest => (hSolve M S fuel op).cost :: hSolveCosts M S fuel rest

/-- The costs of a list of candidate packs. -/
def hCostVPs (M : HModel) (S : Nat → List VectorPack) :
    Nat → List VectorPack → List ℚ
  | _, [] => []
  | fuel, vp :: rest => hCostVP M S fuel vp :: hCostVPs M S fuel rest

/-- Heuristic::solve (Heuristic.cpp): the baseline is explicit insertion;
a zero baseline is returned at once; a splat may be built by broadcast
when strictly cheaper; every producer of the deduplicated pack is an
option (plus a shuffle constant when dedup shrank the pack); finally the
candidate packs attached to the pack's element ids are scanned.  S is
the Inst2Packs index of the candidate set (an absent candidate set is
the empty index); memoization caches a pure function and is dropped; the
fuel bounds the recursion through producer costs. -/
def hSolve (M : HModel) (S : Nat → List VectorPack) : Nat → OperandPack → HSolution
  | 0, OP => ⟨hBaseline M OP, []⟩
  | fuel + 1, OP =>
      let base := hBaseline M OP
      if base = 0 then ⟨base, []⟩
      else
        let bcast := getCostV M M.vfuel (OP.headD VLane.undef) + cSplat
        let sol1 : HSolution :=
          if isSplat OP = true ∧ base > bcast then ⟨bcast, []⟩ else ⟨base, []⟩
        let dd := M.dedup OP
        let extra : ℚ := if dd ≠ OP then cShuffle else 0
        let prods := M.producers dd
        let sol2 := ((prods.zip (hCostVPs M S fuel prods)).foldl
          (fun s p => solUpdate s ⟨p.snd + extra, [p.fst]⟩) sol1)
        let elems := M.prodElements dd
        let cl := ((elems.sort (· ≤ ·)).flatMap (fun i => S i))
        candScanG OP elems extra (cl.zip (hCostVPs M S fuel cl)) [] sol2

end

/-- The in-block instruction id carried by a lane, if any. -/
def laneInstId : VLane → Option Nat
  | VLane.inst i => some i
  | _ => none

/-- The set of in-block instruction ids appearing in a list of operand
packs (the elements of unresolved_packs in the spec's invariant). -/
def opElems (l : List OperandPack) : Finset Nat :=
  (l.flatMap (fun OP => OP.filterMap laneInstId)).toFinset

/-- Wellformedness of a vector pack with respect to the frontier it is
committed at, as the sources establish for every pack they build: the
covered elements are free, the replaced instructions are free and cover
the elements, every ordered-value lane is a covered element, and a store
pack covers only stores. -/
structure VPok (blk : BBlock) (F : Frontier) (VP : VectorPack) : Prop where
  elemsFree : VP.elements ⊆ F.free
  replacedFree : ∀ i ∈ VP.replaced, i ∈ F.free
  elemsSubReplaced : VP.elements ⊆ VP.replaced.toFinset
  lanesElems : ∀ i : Nat, VLane.inst i ∈ VP.orderedValues → i ∈ VP.elements
  storeElems : VP.isStore = true → ∀ i ∈ VP.elements, (blk.inst i).isStore = true

/-- The frontiers reachable from the initial frontier of a block by
advance transitions: scalarizing a free usable instruction, committing a
wellformed vector pack, or applying a shuffle task to a tracked
unresolved pack. -/
inductive Reachable (blk : BBlock) (tti : TTIModel) : Frontier → Prop where
  | init : Reachable blk tti (initialFrontier blk)
  | stepInst (F : Frontier) (I : Nat) : Reachable blk tti F → I ∈ F.free →
      I ∈ F.usable → Reachable blk tti (advanceInst blk tti F I).fst
  | stepVP (F : Frontier) (VP : VectorPack) : Reachable blk tti F →
      VPok blk F VP → Reachable blk tti (advanceVP blk tti F VP).fst
  | stepShuffle (F : Frontier) (ST : ShuffleTask) : Reachable blk tti F →
      ST.output ∈ F.unresolvedPacks → Reachable blk tti (advanceShuffle F ST).fst

/-- Check of one user reference for block wellformedness: an in-block
user points into the block, is matched by an operand, and respects SSA
order unless the user is a phi. -/
def userOkAt (blk : BBlock) (i : Nat) (u : UserRef) : Bool :=
  match u with
  | UserRef.instIn j =>
      decide (j < blk.insts.length) &&
        decide (VLane.inst i ∈ (blk.inst j).operands) &&
        ((blk.inst j).isPhi || decide (i < j))
  | _ => true

/-- Check of one operand lane for block wellformedness: an in-block
operand points into the block and is matched by a user reference. -/
def operandOkAt (blk : BBlock) (j : Nat) (l : VLane) : Bool :=
  match l with
  | VLane.inst i =>
      decide (i < blk.insts.length) &&
        decide (UserRef.instIn j ∈ (blk.inst i).users)
  | _ => true

/-- Wellformedness of the block's use-def information. -/
def WFBlock (blk : BBlock) : Prop :=
  (∀ i < blk.insts.length, ∀ u ∈ (blk.inst i).users, userOkAt blk i u = true) ∧
  (∀ j < blk.insts.length, ∀ l ∈ (blk.inst j).operands, operandOkAt blk j l = true)

/-- Check that a lane is not a store instruction of the block. -/
def laneNotStore (blk : BBlock) (l : VLane) : Bool :=
  match l with
  | VLane.inst i => !(blk.inst i).isStore
  | _ => true

/-- Wellformedness of stores: a store produces no value, so it has no
users and appears in no operand list. -/
def WFStores (blk : BBlock) : Prop :=
  (∀ i < blk.insts.length, (blk.inst i).isStore = true → (blk.inst i).users = []) ∧
  (∀ j < blk.insts.length, ∀ l ∈ (blk.inst j).operands, laneNotStore blk l = true)

/-- The charge the claim attributes to one unresolved pack when an
instruction is scalarized: the target broadcast cost of the pack's
vector type when the pack is a splat of the instruction, else the
per-lane insert charge once per lane equal to it. -/
def instChargeSpec (blk : BBlock) (tti : TTIModel) (I : Nat) (OP : OperandPack) : ℚ :=
  if isSplat OP = true ∧ OP.head? = some (VLane.inst I) then
    tti.broadcastCost (vecTyOP blk OP)
  else laneInsertSum blk tti I OP

/-- The gather cost the claim attributes to an operand pack with a lane
produced by the committed pack: zero on element-wise equality, the
single-source permute cost on an equal-size permutation, the fixed
constant 2 otherwise. -/
def gatherCostSpec (blk : BBlock) (tti : TTIModel) (VP : VectorPack)
    (OP : OperandPack) : ℚ :=
  if VP.orderedValues = OP then 0
  else if VP.orderedValues.length = OP.length ∧ VP.orderedValues.Perm OP then
    tti.permuteCost (vecTyVP blk VP)
  else 2

/-- One step of the consecutive-access DAG. -/
def isChainOf (succ : Nat → List Nat) (xs : List Nat) : Prop :=
  List.Chain' (fun a b => b ∈ succ a) xs

/-- Pairwise independence of a chain under the local dependence analysis:
the accesses are pairwise distinct and neither of any two depends on the
other. -/
def pairwiseIndep (dep : Nat → Finset Nat) (xs : List Nat) : Prop :=
  xs.Pairwise (fun a b => a ≠ b ∧ a ∉ dep b ∧ b ∉ dep a)

/-- The union of the depended sets of a list of accesses. -/
def depUnion (dep : Nat → Finset Nat) (xs : List Nat) : Finset Nat :=
  xs.foldl (fun s a => s ∪ dep a) ∅

/-- A concrete cost oracle used by the witnesses. -/
def wTTI : TTIModel :=
  ⟨fun _ => 3, fun _ => 5, fun _ _ => 7, fun _ _ => 11, fun _ => 13, fun _ => 17⟩

/-- A concrete block used by the witnesses: two loads (ids 0 and 1) each
feeding one of two adjacent stores (ids 2 and 3). -/
def wBlk : BBlock where
  insts := [
    ⟨false, false, true, [VLane.arg 0], [UserRef.instIn 2]⟩,
    ⟨false, false, true, [VLane.arg 1], [UserRef.instIn 3]⟩,
    ⟨false, true, false, [VLane.inst 0, VLane.arg 5], []⟩,
    ⟨false, true, false, [VLane.inst 1, VLane.arg 6], []⟩]
  laneTy := fun _ => 0
  loadSucc := fun i => if i = 0 then [1] else []
  storeSucc := fun i => if i = 2 then [3] else []
  storeKeys := [2, 3]
  dep := fun i => if i = 2 then {0} else if i = 3 then {1} else ∅
  loadLeader := fun _ => 0
  loadSlotId := fun i => i
  bindings := []
  matchesForOutput := fun _ _ => []

/-- The store seed pack of the witness block covering both stores. -/
def wVP : VectorPack := createStorePack wBlk wTTI [2, 3] {2, 3} {0, 1}

/-- The frontier of the witness block after committing the store pack. -/
def wF1 : Frontier := (advanceVP wBlk wTTI (initialFrontier wBlk) wVP).fst

/-- The frontier of the witness block after additionally scalarizing
instruction 0; its unresolved pack retains the frozen lane 0. -/
def wF2 : Frontier := (advanceInst wBlk wTTI wF1 0).fst

/-- The load pack of the witness block covering both loads. -/
def wLoadVP : VectorPack := createLoadPack wBlk wTTI [some 0, some 1] {0, 1} ∅

/-- A block containing a store (id 1, fed by load 0) whose store DAG has
no successor: the store is usable, yet no seed store pack of any lane
count the seed loop tries (all at least 2) exists. -/
def wStoreBlk : BBlock where
  insts := [
    ⟨false, false, true, [VLane.arg 0], [UserRef.instIn 1]⟩,
    ⟨false, true, false, [VLane.inst 0, VLane.arg 1], []⟩]
  laneTy := fun _ => 0
  loadSucc := fun _ => []
  storeSucc := fun _ => []
  storeKeys := [1]
  dep := fun i => if i = 1 then {0} else ∅
  loadLeader := fun _ => 0
  loadSlotId := fun i => i
  bindings := []
  matchesForOutput := fun _ _ => []

/-- A block with no instructions at all. -/
def emptyBlk : BBlock where
  insts := []
  laneTy := fun _ => 0
  loadSucc := fun _ => []
  storeSucc := fun _ => []
  storeKeys := []
  dep := fun _ => ∅
  loadLeader := fun _ => 0
  loadSlotId := fun _ => 0
  bindings := []
  matchesForOutput := fun _ _ => []

/-- A concrete heuristic environment over the witness block: unit scalar
costs, the block's operand lists, identity dedup, elements read off the
lanes, and no producers. -/
def wHM : HModel where
  scalarCost := fun _ => 1
  operands := fun i => (wBlk.inst i).operands
  dedup := fun OP => OP
  prodElements := fun OP => (OP.filterMap laneInstId).toFinset
  producers := fun _ => []
  vfuel := 4

/-! ## Theorems -/

theorem foldInit_fixed (l : List (Nat × InstInfo)) (F : Frontier) :
    (l.foldl initStep F).rpos = F.rpos ∧ (l.foldl initStep F).free = F.free ∧
    (l.foldl initStep F).unresolvedPacks = F.unresolvedPacks := by
  induction l generalizing F with
  | nil => exact ⟨rfl, rfl, rfl⟩
  | cons p rest ih => exact ih _

theorem foldInit_mem_urs (l : List (Nat × InstInfo)) (F : Frontier) (i : Nat) :
    i ∈ (l.foldl initStep F).unresolvedScalars ↔
      i ∈ F.unresolvedScalars ∨ ∃ p ∈ l, p.fst = i ∧ ctorUnresolved p.snd = true := by
  induction l generalizing F with
  | nil => simp
  | cons p rest ih =>
      simp only [List.foldl_cons, ih, List.mem_cons]
      constructor
      · rintro (h | ⟨q, hq, rfl, hu⟩)
        · simp only [initStep] at h
          by_cases hc : ctorUnresolved p.snd = true
          · simp only [hc, if_pos] at h
            rcases Finset.mem_insert.mp h with rfl | h
            · exact Or.inr ⟨p, Or.inl rfl, rfl, hc⟩
            · exact Or.inl h
          · simp only [hc] at h
            simp only [if_false, Bool.false_eq_true] at h
            exact Or.inl h
        · exact Or.inr ⟨q, Or.inr hq, rfl, hu⟩
      · rintro (h | ⟨q, hq | hq, rfl, hu⟩)
        · left
          simp only [initStep]
          by_cases hc : ctorUnresolved p.snd = true
          · simp only [hc, if_pos]
            exact Finset.mem_insert_of_mem h
          · simpa [hc] using h
        · left
          subst hq
          simp only [initStep, hu, if_pos]
          exact Finset.mem_insert_self _ _
        · exact Or.inr ⟨q, hq, rfl, hu⟩

theorem foldInit_mem_usable (l : List (Nat × InstInfo)) (F : Frontier) (i : Nat) :
    i ∈ (l.foldl initStep F).usable ↔
      i ∈ F.usable ∨ ∃ p ∈ l, p.fst = i ∧ ctorUsable p.snd = true := by
  induction l generalizing F with
  | nil => simp
  | cons p rest ih =>
      simp only [List.foldl_cons, ih, List.mem_cons]
      constructor
      · rintro (h | ⟨q, hq, rfl, hu⟩)
        · simp only [initStep] at h
          by_cases hc : ctorUsable p.snd = true
          · simp only [hc, if_pos] at h
            rcases Finset.mem_insert.mp h with rfl | h
            · exact Or.inr ⟨p, Or.inl rfl, rfl, hc⟩
            · exact Or.inl h
          · simp only [hc] at h
            simp only [if_false, Bool.false_eq_true] at h
            exact Or.inl h
        · exact Or.inr ⟨q, Or.inr hq, rfl, hu⟩
      · rintro (h | ⟨q, hq | hq, rfl, hu⟩)
        · left
          simp only [initStep]
          by_cases hc : ctorUsable p.snd = true
          · simp only [hc, if_pos]
            exact Finset.mem_insert_of_mem h
          · simpa [hc] using h
        · left
          subst hq
          simp only [initStep, hu, if_pos]
          exact Finset.mem_insert_self _ _
        · exact Or.inr ⟨q, hq, rfl, hu⟩

theorem ctorUnresolved_iff (info : InstInfo) :
    ctorUnresolved info = true ↔ UserRef.instOut ∈ info.users := by
  simp [ctorUnresolved, List.any_eq_true]

theorem notInstIn_iff (u : UserRef) :
    (match u with
      | UserRef.instIn _ => false
      | _ => true) = true ↔ ∀ j : Nat, u ≠ UserRef.instIn j := by
  cases u <;> simp

theorem ctorUsable_iff (info : InstInfo) :
    ctorUsable info = true ↔
      ((∀ j : Nat, UserRef.instIn j ∉ info.users) ∨ info.isPhi = true) := by
  simp only [ctorUsable, Bool.or_eq_true, List.all_eq_true]
  constructor
  · rintro (h | h)
    · left
      intro j hj
      have := (notInstIn_iff _).mp (h _ hj) j
      exact this rfl
    · exact Or.inr h
  · rintro (h | h)
    · left
      intro u hu
      refine (notInstIn_iff u).mpr ?_
      rintro j rfl
      exact h j hu
    · exact Or.inr h

theorem inst_getElem (blk : BBlock) (i : Nat) (h : i < blk.insts.length) :
    blk.insts[i]? = some (blk.inst i) := by
  rw [List.getElem?_eq_getElem h]
  simp [BBlock.inst, List.getD, List.getElem?_eq_getElem h]

/-- C3: for every basic block, the freshly constructed Frontier has the
cursor on the block's last instruction, every instruction free, the
unresolved scalars exactly the instructions with a user outside the
block, and the usable set exactly the instructions with no in-block users
plus all phi nodes. -/
theorem frontier_ctor_spec (blk : BBlock) :
    (initialFrontier blk).free = Finset.range blk.insts.length ∧
    (blk.insts ≠ [] →
      getNextFreeInst blk (initialFrontier blk) = some (blk.insts.length - 1)) ∧
    (∀ i : Nat, i ∈ (initialFrontier blk).unresolvedScalars ↔
      i < blk.insts.length ∧ UserRef.instOut ∈ (blk.inst i).users) ∧
    (∀ i : Nat, i ∈ (initialFrontier blk).usable ↔
      i < blk.insts.length ∧
        ((∀ j : Nat, UserRef.instIn j ∉ (blk.inst i).users) ∨
          (blk.inst i).isPhi = true)) := by
  have hfix := foldInit_fixed blk.insts.enum ⟨0, Finset.range blk.insts.length, ∅, ∅, []⟩
  refine ⟨hfix.2.1, ?_, ?_, ?_⟩
  · intro hne
    have hlen : 0 < blk.insts.length := List.length_pos.mpr hne
    simp [getNextFreeInst, initialFrontier, hfix.1, hlen]
  · intro i
    rw [show (initialFrontier blk) = blk.insts.enum.foldl initStep
        ⟨0, Finset.range blk.insts.length, ∅, ∅, []⟩ from rfl,
      foldInit_mem_urs]
    simp only [Finset.not_mem_empty, false_or]
    constructor
    · rintro ⟨p, hp, rfl, hu⟩
      obtain ⟨j, info⟩ := p
      have := List.mk_mem_enum_iff_getElem?.mp hp
      have hj : j < blk.insts.length := by
        by_contra hge
        rw [List.getElem?_eq_none (le_of_not_lt hge)] at this
        exact Option.noConfusion this
      have hinfo : info = blk.inst j := by
        have h2 := inst_getElem blk j hj
        rw [this] at h2
        exact (Option.some.injEq _ _).mp h2
      subst hinfo
      exact ⟨hj, (ctorUnresolved_iff _).mp hu⟩
    · rintro ⟨hi, hu⟩
      refine ⟨(i, blk.inst i), ?_, rfl, (ctorUnresolved_iff _).mpr hu⟩
      exact List.mk_mem_enum_iff_getElem?.mpr (inst_getElem blk i hi)
  · intro i
    rw [show (initialFrontier blk) = blk.insts.enum.foldl initStep
        ⟨0, Finset.range blk.insts.length, ∅, ∅, []⟩ from rfl,
      foldInit_mem_usable]
    simp only [Finset.not_mem_empty, false_or]
    constructor
    · rintro ⟨p, hp, rfl, hu⟩
      obtain ⟨j, info⟩ := p
      have := List.mk_mem_enum_iff_getElem?.mp hp
      have hj : j < blk.insts.length := by
        by_contra hge
        rw [List.getElem?_eq_none (le_of_not_lt hge)] at this
        exact Option.noConfusion this
      have hinfo : info = blk.inst j := by
        have h2 := inst_getElem blk j hj
        rw [this] at h2
        exact (Option.some.injEq _ _).mp h2
      subst hinfo
      exact ⟨hj, (ctorUsable_iff _).mp hu⟩
    · rintro ⟨hi, hu⟩
      refine ⟨(i, blk.inst i), ?_, rfl, (ctorUsable_iff _).mpr hu⟩
      exact List.mk_mem_enum_iff_getElem?.mpr (inst_getElem blk i hi)

/-- C6: for every root UCT node that is expanded with exactly one
transition, UCTSearch::run executes exactly one search iteration
whatever the requested iteration count. -/
theorem uct_forced_move_single_iter (root : UCTNodeM)
    (h1 : root.expanded = true) (h2 : root.transitions.length = 1) (N : Nat) :
    uctRunIterCount root N = 1 := by
  simp [uctRunIterCount, h1, h2]

theorem uct_forced_move_single_iter_witness :
    UCTNodeM.expanded ⟨[(5 : ℚ)]⟩ = true ∧ ([(5 : ℚ)].length = 1) ∧
      uctRunIterCount ⟨[(5 : ℚ)]⟩ 0 = 1 ∧ uctRunIterCount ⟨[(5 : ℚ)]⟩ 100 = 1 :=
  ⟨rfl, rfl, uct_forced_move_single_iter ⟨[(5 : ℚ)]⟩ rfl rfl 0,
    uct_forced_move_single_iter ⟨[(5 : ℚ)]⟩ rfl rfl 100⟩

theorem findEntry_congr (t : List (Frontier × Nat)) (F1 F2 : Frontier)
    (h : frontKey F1 = frontKey F2) :
    t.find? (fun p => decide (frontKey p.fst = frontKey F1)) =
      t.find? (fun p => decide (frontKey p.fst = frontKey F2)) := by
  have hfun : (fun (p : Frontier × Nat) => decide (frontKey p.fst = frontKey F1)) =
      (fun p => decide (frontKey p.fst = frontKey F2)) := by
    funext p
    rw [h]
  rw [hfun]

/-- C10: getNode called on two frontiers that compare equal returns the
same node, so each distinct frontier state owns at most one node in the
search tree. -/
theorem factory_getNode_unique (fac : UCTNodeFactory) (F1 F2 : Frontier)
    (h : frontKey F1 = frontKey F2) :
    (factoryGetNode (factoryGetNode fac F1).snd F2).fst =
      (factoryGetNode fac F1).fst := by
  have hcong := findEntry_congr fac.table F1 F2 h
  rcases hf : fac.table.find? (fun p => decide (frontKey p.fst = frontKey F1)) with _ | p
  · have hf2 : fac.table.find? (fun p => decide (frontKey p.fst = frontKey F2)) = none := by
      rw [← hcong]
      exact hf
    have happ : ((fac.table ++ [(F1, fac.nextId)]).find?
        (fun p => decide (frontKey p.fst = frontKey F2))) = some (F1, fac.nextId) := by
      rw [List.find?_append, hf2]
      simp [h]
    simp [factoryGetNode, hf, happ]
  · have hf2 : fac.table.find? (fun p => decide (frontKey p.fst = frontKey F2)) = some p := by
      rw [← hcong]
      exact hf
    simp [factoryGetNode, hf, hf2]

theorem factory_getNode_unique_witness :
    frontKey ⟨0, ∅, ∅, ∅, []⟩ = frontKey ⟨0, ∅, ∅, {3}, []⟩ ∧
      (factoryGetNode (factoryGetNode ⟨[], 0⟩ ⟨0, ∅, ∅, ∅, []⟩).snd
        ⟨0, ∅, ∅, {3}, []⟩).fst =
        (factoryGetNode (⟨[], 0⟩ : UCTNodeFactory) ⟨0, ∅, ∅, ∅, []⟩).fst :=
  ⟨by decide, factory_getNode_unique ⟨[], 0⟩ _ _ (by decide)⟩

theorem instPackScanStep_fst (blk : BBlock) (tti : TTIModel) (I : Nat)
    (free : Finset Nat) (acc : ℚ × List Nat) (p : Nat × OperandPack) :
    (instPackScanStep blk tti I free acc p).fst =
      acc.fst + instChargeSpec blk tti I p.snd := by
  unfold instPackScanStep instChargeSpec
  by_cases hs : isSplat p.snd = true ∧ p.snd.head? = some (VLane.inst I)
  · rw [if_pos hs, if_pos hs]
  · rw [if_neg hs, if_neg hs]
    by_cases hr : resolvedOP free p.snd = true
    · rw [if_pos hr]
    · rw [if_neg hr]

theorem instPackScan_cost (blk : BBlock) (tti : TTIModel) (I : Nat)
    (free : Finset Nat) (l : List (Nat × OperandPack)) (acc : ℚ × List Nat) :
    (l.foldl (instPackScanStep blk tti I free) acc).fst =
      acc.fst + (l.map (fun p => instChargeSpec blk tti I p.snd)).sum := by
  induction l generalizing acc with
  | nil => simp
  | cons p rest ih =>
      rw [List.foldl_cons, ih, List.map_cons, List.sum_cons,
        instPackScanStep_fst]
      ring

theorem instPackScanStep_snd (blk : BBlock) (tti : TTIModel) (I : Nat)
    (free : Finset Nat) (acc : ℚ × List Nat) (p : Nat × OperandPack) :
    (instPackScanStep blk tti I free acc p).snd =
      if (decide (isSplat p.snd = true ∧ p.snd.head? = some (VLane.inst I)) ||
          resolvedOP free p.snd) = true then acc.snd ++ [p.fst] else acc.snd := by
  unfold instPackScanStep
  by_cases hs : isSplat p.snd = true ∧ p.snd.head? = some (VLane.inst I)
  · simp [hs]
  · by_cases hr : resolvedOP free p.snd = true
    · simp [hs, hr]
    · simp [hs, hr]

theorem instPackScan_marked (blk : BBlock) (tti : TTIModel) (I : Nat)
    (free : Finset Nat) (l : List (Nat × OperandPack)) (acc : ℚ × List Nat) :
    (l.foldl (instPackScanStep blk tti I free) acc).snd =
      acc.snd ++ (l.filter (fun p =>
        decide (isSplat p.snd = true ∧ p.snd.head? = some (VLane.inst I)) ||
          resolvedOP free p.snd)).map Prod.fst := by
  induction l generalizing acc with
  | nil => simp
  | cons p rest ih =>
      rw [List.foldl_cons, ih, List.filter_cons]
      by_cases hc : (decide (isSplat p.snd = true ∧ p.snd.head? = some (VLane.inst I)) ||
          resolvedOP free p.snd) = true
      · rw [instPackScanStep_snd, if_pos hc, if_pos hc]
        simp
      · rw [instPackScanStep_snd, if_neg hc, if_neg (by simpa using hc)]

theorem removeIndices_mem {α : Type} (l : List α) (ids : List Nat) (x : α) :
    x ∈ removeIndices l ids → ∃ p ∈ l.enum, p.snd = x ∧ p.fst ∉ ids := by
  intro hx
  unfold removeIndices at hx
  rcases List.mem_map.mp hx with ⟨p, hp, rfl⟩
  rcases List.mem_filter.mp hp with ⟨hpl, hcond⟩
  refine ⟨p, hpl, rfl, ?_⟩
  simpa using hcond

theorem foldFreeze_packs (blk : BBlock) (rs : List Nat) (F : Frontier) :
    (rs.foldl (freezeOneInst blk) F).unresolvedPacks = F.unresolvedPacks := by
  induction rs generalizing F with
  | nil => rfl
  | cons r rest ih => exact ih _

theorem operandScan_pushed_not_resolved (blk : BBlock) (tti : TTIModel)
    (free : Finset Nat) (VP : VectorPack) (base : List OperandPack) :
    ∀ OP ∈ (operandScan blk tti free VP base).snd, resolvedOP free OP = false := by
  unfold operandScan
  suffices h : ∀ (l : List OperandPack) (acc : ℚ × List OperandPack),
      (∀ OP ∈ acc.snd, resolvedOP free OP = false) →
      ∀ OP ∈ (l.foldl (fun acc opk =>
        let c2 := acc.fst + foreignInsertSum blk tti opk
        if ¬ resolvedOP free opk = true ∧ opk ∉ base ++ acc.snd then
          (c2, acc.snd ++ [opk])
        else (c2, acc.snd)) acc).snd, resolvedOP free OP = false by
    intro OP hOP
    exact h VP.operandPacks (0, []) (by simp) OP hOP
  intro l
  induction l with
  | nil =>
      intro acc hacc OP hOP
      exact hacc OP hOP
  | cons opk rest ih =>
      intro acc hacc OP hOP
      rw [List.foldl_cons] at hOP
      refine ih _ ?_ OP hOP
      intro Q hQ
      by_cases hc : ¬ resolvedOP free opk = true ∧ opk ∉ base ++ acc.snd
      · rw [if_pos hc] at hQ
        rcases List.mem_append.mp hQ with hQ2 | hQ2
        · exact hacc Q hQ2
        · rcases List.mem_singleton.mp hQ2 with rfl
          exact Bool.eq_false_iff.mpr hc.1
      · rw [if_neg hc] at hQ
        exact hacc Q hQ


theorem mem_insertSorted {α : Type} (le : α → α → Bool) (x a : α) (l : List α) :
    a ∈ insertSorted le x l ↔ a = x ∨ a ∈ l := by
  induction l with
  | nil => simp [insertSorted]
  | cons y ys ih =>
      unfold insertSorted
      by_cases hc : le x y = true
      · simp [hc]
      · simp only [hc, if_false, List.mem_cons, ih, Bool.false_eq_true]
        tauto

theorem mem_sortBy {α : Type} (le : α → α → Bool) (a : α) (l : List α) :
    a ∈ sortBy le l ↔ a ∈ l := by
  induction l with
  | nil => simp [sortBy]
  | cons x xs ih =>
      unfold sortBy
      rw [mem_insertSorted, ih, List.mem_cons]
theorem enum_snd_mem {α : Type} (l : List α) (p : Nat × α) (hp : p ∈ l.enum) :
    p.snd ∈ l := by
  obtain ⟨i, x⟩ := p
  have h := List.mk_mem_enum_iff_getElem?.mp hp
  exact List.getElem?_mem h

theorem advanceInst_kept_not_resolved (blk : BBlock) (tti : TTIModel)
    (F : Frontier) (I : Nat) :
    ∀ OP ∈ (advanceInst blk tti F I).fst.unresolvedPacks,
      resolvedOP (advanceInst blk tti F I).fst.free OP = false := by
  intro OP hOP
  have hres : (advanceInst blk tti F I).fst.unresolvedPacks =
      sortPacks (removeIndices (advanceBBIt blk (freezeOneInst blk F I)).unresolvedPacks
        (instPackScan blk tti I (advanceBBIt blk (freezeOneInst blk F I)).free
          (advanceBBIt blk (freezeOneInst blk F I)).unresolvedPacks).snd) := rfl
  have hfree : (advanceInst blk tti F I).fst.free =
      (advanceBBIt blk (freezeOneInst blk F I)).free := rfl
  rw [hres] at hOP
  have hOP2 := (mem_sortBy _ _ _).mp hOP
  obtain ⟨p, hp, rfl, hnot⟩ := removeIndices_mem _ _ _ hOP2
  rw [hfree]
  by_contra hres2
  have hr : resolvedOP (advanceBBIt blk (freezeOneInst blk F I)).free p.snd = true := by
    revert hres2
    cases resolvedOP (advanceBBIt blk (freezeOneInst blk F I)).free p.snd <;> simp
  refine hnot ?_
  unfold instPackScan
  rw [instPackScan_marked]
  simp only [List.nil_append]
  exact List.mem_map.mpr ⟨p, List.mem_filter.mpr ⟨hp, by simp [hr]⟩, rfl⟩

theorem advanceVP_fresh_not_resolved (blk : BBlock) (tti : TTIModel)
    (F : Frontier) (VP : VectorPack) :
    ∀ OP ∈ (advanceVP blk tti F VP).fst.unresolvedPacks,
      OP ∉ F.unresolvedPacks →
        resolvedOP (advanceVP blk tti F VP).fst.free OP = false := by
  intro OP hOP hnew
  have hpacks : (advanceBBIt blk ((sortDesc VP.replaced).foldl (freezeOneInst blk) F)).unresolvedPacks =
      F.unresolvedPacks := foldFreeze_packs blk (sortDesc VP.replaced) F
  have hres : (advanceVP blk tti F VP).fst.unresolvedPacks =
      sortPacks (removeIndices
        ((advanceBBIt blk ((sortDesc VP.replaced).foldl (freezeOneInst blk) F)).unresolvedPacks ++
          (operandScan blk tti
            (advanceBBIt blk ((sortDesc VP.replaced).foldl (freezeOneInst blk) F)).free VP
            (advanceBBIt blk ((sortDesc VP.replaced).foldl (freezeOneInst blk) F)).unresolvedPacks).snd)
        (gatherScan blk tti
          (advanceBBIt blk ((sortDesc VP.replaced).foldl (freezeOneInst blk) F)).free VP
          (advanceBBIt blk ((sortDesc VP.replaced).foldl (freezeOneInst blk) F)).unresolvedPacks).snd) := rfl
  have hfree : (advanceVP blk tti F VP).fst.free =
      (advanceBBIt blk ((sortDesc VP.replaced).foldl (freezeOneInst blk) F)).free := rfl
  rw [hres] at hOP
  have hOP2 := (mem_sortBy _ _ _).mp hOP
  obtain ⟨p, hp, rfl, -⟩ := removeIndices_mem _ _ _ hOP2
  have hpmem := enum_snd_mem _ _ hp
  rcases List.mem_append.mp hpmem with hold | hpush
  · rw [hpacks] at hold
    exact absurd hold hnew
  · rw [hfree]
    exact operandScan_pushed_not_resolved blk tti _ VP _ p.snd hpush

/-- C5 (amended): the subset invariant elements(unresolved_packs) ⊆ free
does not hold along advance transitions (see the counterexample); what
the transitions do maintain is that no kept or newly added unresolved
operand pack is fully resolved: after scalarizing any instruction every
remaining unresolved pack still has a lane that is a free in-block
instruction, and every operand pack newly added by a pack commit does
too. -/
theorem advance_kept_packs_unresolved (blk : BBlock) (tti : TTIModel)
    (F : Frontier) (I : Nat) (F2 : Frontier) (VP : VectorPack) :
    (∀ OP ∈ (advanceInst blk tti F I).fst.unresolvedPacks,
      resolvedOP (advanceInst blk tti F I).fst.free OP = false) ∧
    (∀ OP ∈ (advanceVP blk tti F2 VP).fst.unresolvedPacks,
      OP ∉ F2.unresolvedPacks →
        resolvedOP (advanceVP blk tti F2 VP).fst.free OP = false) :=
  ⟨advanceInst_kept_not_resolved blk tti F I,
    advanceVP_fresh_not_resolved blk tti F2 VP⟩

theorem advance_kept_packs_unresolved_witness :
    [VLane.inst 0, VLane.inst 1] ∈ (advanceInst wBlk wTTI wF1 0).fst.unresolvedPacks ∧
      resolvedOP (advanceInst wBlk wTTI wF1 0).fst.free
        [VLane.inst 0, VLane.inst 1] = false :=
  ⟨by decide,
    (advance_kept_packs_unresolved wBlk wTTI wF1 0 (initialFrontier wBlk) wVP).1
      [VLane.inst 0, VLane.inst 1] (by decide)⟩

/-- C5 (counterexample): a reachable frontier whose unresolved packs
mention a frozen instruction: committing the store seed pack of the
witness block tracks the operand pack of the two stored values, and
scalarizing value 0 freezes it while the pack stays unresolved, so
elements(unresolved_packs) ⊆ free fails. -/
theorem unresolved_elems_subset_free_counterexample :
    Reachable wBlk wTTI wF2 ∧ ¬ opElems wF2.unresolvedPacks ⊆ wF2.free := by
  constructor
  · have h1 : Reachable wBlk wTTI wF1 := by
      refine Reachable.stepVP (initialFrontier wBlk) wVP Reachable.init ?_
      refine ⟨by decide, by decide, by decide, ?_, ?_⟩
      · intro i hi
        simp only [wVP, createStorePack, List.map_cons, List.map_nil,
          List.mem_cons, List.not_mem_nil, or_false] at hi
        rcases hi with h | h
        · rw [show i = 2 from by injection h]
          decide
        · rw [show i = 3 from by injection h]
          decide
      · decide
    exact Reachable.stepInst wF1 0 h1 (by decide) (by decide)
  · decide

theorem instPackScan_marked_iff (blk : BBlock) (tti : TTIModel) (I : Nat)
    (free : Finset Nat) (l : List OperandPack) (k : Nat) :
    k ∈ (instPackScan blk tti I free l).snd ↔
      ∃ OP, l[k]? = some OP ∧
        (decide (isSplat OP = true ∧ OP.head? = some (VLane.inst I)) ||
          resolvedOP free OP) = true := by
  unfold instPackScan
  rw [instPackScan_marked]
  simp only [List.nil_append, List.mem_map, List.mem_filter]
  constructor
  · rintro ⟨p, ⟨hpe, hpc⟩, rfl⟩
    obtain ⟨k', OP'⟩ := p
    exact ⟨OP', List.mk_mem_enum_iff_getElem?.mp hpe, hpc⟩
  · rintro ⟨OP, hk, hc⟩
    exact ⟨(k, OP), ⟨List.mk_mem_enum_iff_getElem?.mpr hk, hc⟩, rfl⟩

theorem removeIndices_mem_of {α : Type} (l : List α) (ids : List Nat)
    (k : Nat) (x : α) (hk : l[k]? = some x) (hnot : k ∉ ids) :
    x ∈ removeIndices l ids := by
  unfold removeIndices
  refine List.mem_map.mpr ⟨(k, x), List.mem_filter.mpr ⟨?_, ?_⟩, rfl⟩
  · exact List.mk_mem_enum_iff_getElem?.mpr hk
  · simpa using hnot

/-- C1: scalarizing a free instruction I charges, over the unresolved
packs, the broadcast cost of the pack's vector type for a splat of I and
the per-lane insert charge once per lane equal to I otherwise; a splat of
I is marked resolved, and any other pack containing I is marked resolved
exactly when every slot of it is frozen afterwards (no lane is a
still-free in-block instruction). -/
theorem advanceInst_charges_and_resolution (blk : BBlock) (tti : TTIModel)
    (F : Frontier) (I : Nat) (OP : OperandPack)
    (_hfree : I ∈ F.free) (hOP : OP ∈ F.unresolvedPacks)
    (hin : VLane.inst I ∈ OP) :
    (advanceInst blk tti F I).snd =
      (F.unresolvedPacks.map (instChargeSpec blk tti I)).sum ∧
    (isSplat OP = true ∧ OP.head? = some (VLane.inst I) →
      OP ∉ (advanceInst blk tti F I).fst.unresolvedPacks) ∧
    (¬ (isSplat OP = true ∧ OP.head? = some (VLane.inst I)) →
      (OP ∉ (advanceInst blk tti F I).fst.unresolvedPacks ↔
        resolvedOP (advanceInst blk tti F I).fst.free OP = true)) := by
  have hpacks1 : (advanceBBIt blk (freezeOneInst blk F I)).unresolvedPacks =
      F.unresolvedPacks := rfl
  have hcost : (advanceInst blk tti F I).snd =
      (instPackScan blk tti I (advanceBBIt blk (freezeOneInst blk F I)).free
        F.unresolvedPacks).fst := rfl
  have hres : (advanceInst blk tti F I).fst.unresolvedPacks =
      sortPacks (removeIndices F.unresolvedPacks
        (instPackScan blk tti I (advanceBBIt blk (freezeOneInst blk F I)).free
          F.unresolvedPacks).snd) := rfl
  have hfree2 : (advanceInst blk tti F I).fst.free =
      (advanceBBIt blk (freezeOneInst blk F I)).free := rfl
  refine ⟨?_, ?_, ?_⟩
  · rw [hcost]
    unfold instPackScan
    rw [instPackScan_cost]
    have hmap : F.unresolvedPacks.enum.map (fun p => instChargeSpec blk tti I p.snd) =
        F.unresolvedPacks.map (instChargeSpec blk tti I) := by
      rw [show (fun (p : Nat × OperandPack) => instChargeSpec blk tti I p.snd) =
          (instChargeSpec blk tti I) ∘ Prod.snd from rfl, ← List.map_map,
        List.enum_map_snd]
    rw [hmap, zero_add]
  · intro hsplat
    rw [hres]
    intro hmem
    have hmem2 := (mem_sortBy _ _ _).mp hmem
    obtain ⟨p, hp, rfl, hnot⟩ := removeIndices_mem _ _ _ hmem2
    obtain ⟨k, OP'⟩ := p
    refine hnot ((instPackScan_marked_iff blk tti I _ _ _).mpr ?_)
    exact ⟨OP', List.mk_mem_enum_iff_getElem?.mp hp, by simp [hsplat]⟩
  · intro hnsplat
    constructor
    · intro hmem
      by_contra hnres
      have hr : resolvedOP (advanceInst blk tti F I).fst.free OP = false := by
        revert hnres
        cases resolvedOP (advanceInst blk tti F I).fst.free OP <;> simp
      obtain ⟨k, hk, hgetk⟩ := List.getElem_of_mem hOP
      refine hmem ?_
      rw [hres]
      refine (mem_sortBy _ _ _).mpr ?_
      refine removeIndices_mem_of _ _ k OP ?_ ?_
      · rw [List.getElem?_eq_getElem hk, hgetk]
      · intro hkin
        obtain ⟨OP', hOP', hc⟩ := (instPackScan_marked_iff blk tti I _ _ _).mp hkin
        rw [List.getElem?_eq_getElem hk, hgetk] at hOP'
        obtain rfl : OP = OP' := by injection hOP'
        rw [hfree2] at hr
        simp [hnsplat, hr] at hc
    · intro hresolved
      rw [hres]
      intro hmem
      have hmem2 := (mem_sortBy _ _ _).mp hmem
      obtain ⟨p, hp, rfl, hnot⟩ := removeIndices_mem _ _ _ hmem2
      obtain ⟨k, OP'⟩ := p
      refine hnot ((instPackScan_marked_iff blk tti I _ _ _).mpr ?_)
      refine ⟨OP', List.mk_mem_enum_iff_getElem?.mp hp, ?_⟩
      rw [hfree2] at hresolved
      simp [hresolved]

theorem advanceInst_charges_and_resolution_witness :
    0 ∈ wF1.free ∧ [VLane.inst 0, VLane.inst 1] ∈ wF1.unresolvedPacks ∧
      VLane.inst 0 ∈ [VLane.inst 0, VLane.inst 1] ∧
      (advanceInst wBlk wTTI wF1 0).snd =
        (wF1.unresolvedPacks.map (instChargeSpec wBlk wTTI 0)).sum :=
  ⟨by decide, by decide, by decide,
    (advanceInst_charges_and_resolution wBlk wTTI wF1 0 [VLane.inst 0, VLane.inst 1]
      (by decide) (by decide) (by decide)).1⟩

theorem producedBy_inst (VP : VectorPack) (OP : OperandPack)
    (hprod : producedBy VP OP = true) :
    ∃ i : Nat, VLane.inst i ∈ OP ∧ i ∈ VP.elements := by
  obtain ⟨l, hl, hcond⟩ := List.any_eq_true.mp hprod
  cases l with
  | inst i => exact ⟨i, hl, by simpa using hcond⟩
  | undef => simp at hcond
  | const c => simp at hcond
  | arg a => simp at hcond
  | xinst x => simp at hcond

theorem getGatherCost_eq_spec (blk : BBlock) (tti : TTIModel) (VP : VectorPack)
    (OP : OperandPack) (hprod : producedBy VP OP = true) :
    getGatherCost blk tti VP OP = gatherCostSpec blk tti VP OP := by
  obtain ⟨i, hi, -⟩ := producedBy_inst VP OP hprod
  have hnc : isConstantPack OP = false := by
    rcases h : isConstantPack OP with _ | _
    · rfl
    · have := List.all_eq_true.mp h _ hi
      simp at this
  have hle : VP.orderedValues = OP → VP.orderedValues.length = OP.length :=
    fun h => by rw [h]
  unfold getGatherCost gatherCostSpec
  rw [if_neg (by simp [hnc])]
  split_ifs <;> first | rfl | tauto

theorem gatherScan_cost (blk : BBlock) (tti : TTIModel) (free : Finset Nat)
    (VP : VectorPack) (packs : List OperandPack) (hns : VP.isStore = false) :
    (gatherScan blk tti free VP packs).fst =
      (packs.map (fun OP =>
        if producedBy VP OP = true then getGatherCost blk tti VP OP else 0)).sum := by
  unfold gatherScan
  rw [if_neg (by simp [hns])]
  have h : ∀ (l : List (Nat × OperandPack)) (acc : ℚ × List Nat),
      (l.foldl (fun acc p =>
        if producedBy VP p.snd then
          let c2 := acc.fst + getGatherCost blk tti VP p.snd
          if resolvedOP free p.snd then (c2, acc.snd ++ [p.fst]) else (c2, acc.snd)
        else acc) acc).fst =
      acc.fst + (l.map (fun p =>
        if producedBy VP p.snd = true then getGatherCost blk tti VP p.snd else 0)).sum := by
    intro l
    induction l with
    | nil => simp
    | cons p rest ih =>
        intro acc
        rw [List.foldl_cons, ih]
        simp only [List.map_cons, List.sum_cons]
        by_cases hp : producedBy VP p.snd = true
        · rw [if_pos hp, if_pos hp]
          by_cases hr : resolvedOP free p.snd = true
          · rw [if_pos hr]
            ring
          · rw [if_neg hr]
            ring
        · rw [if_neg hp, if_neg hp]
          ring
  rw [h packs.enum ((0 : ℚ), ([] : List Nat)), zero_add]
  rw [show packs.enum.map (fun p =>
      if producedBy VP p.snd = true then getGatherCost blk tti VP p.snd else 0) =
    packs.map (fun OP =>
      if producedBy VP OP = true then getGatherCost blk tti VP OP else 0) from by
      rw [show (fun (p : Nat × OperandPack) =>
          if producedBy VP p.snd = true then getGatherCost blk tti VP p.snd else 0) =
        (fun OP => if producedBy VP OP = true then getGatherCost blk tti VP OP else 0) ∘
          Prod.snd from rfl, ← List.map_map, List.enum_map_snd]]

theorem gatherScan_marked (blk : BBlock) (tti : TTIModel) (free : Finset Nat)
    (VP : VectorPack) (l : List (Nat × OperandPack)) (acc : ℚ × List Nat) :
    (l.foldl (fun acc p =>
      if producedBy VP p.snd then
        let c2 := acc.fst + getGatherCost blk tti VP p.snd
        if resolvedOP free p.snd then (c2, acc.snd ++ [p.fst]) else (c2, acc.snd)
      else acc) acc).snd =
      acc.snd ++ (l.filter (fun p =>
        producedBy VP p.snd && resolvedOP free p.snd)).map Prod.fst := by
  induction l generalizing acc with
  | nil => simp
  | cons p rest ih =>
      rw [List.foldl_cons, ih, List.filter_cons]
      by_cases hp : producedBy VP p.snd = true
      · by_cases hr : resolvedOP free p.snd = true
        · rw [if_pos hp, if_pos hr]
          simp [hp, hr]
        · rw [if_pos hp, if_neg hr]
          simp [hp, hr]
      · rw [if_neg hp]
        simp [hp]

theorem gatherScan_marked_iff (blk : BBlock) (tti : TTIModel) (free : Finset Nat)
    (VP : VectorPack) (l : List OperandPack) (k : Nat) (hns : VP.isStore = false) :
    k ∈ (gatherScan blk tti free VP l).snd ↔
      ∃ OP, l[k]? = some OP ∧ producedBy VP OP = true ∧
        resolvedOP free OP = true := by
  unfold gatherScan
  rw [if_neg (by simp [hns]), gatherScan_marked]
  simp only [List.nil_append, List.mem_map, List.mem_filter, Bool.and_eq_true]
  constructor
  · rintro ⟨p, ⟨hpe, hp, hr⟩, rfl⟩
    obtain ⟨k', OP'⟩ := p
    exact ⟨OP', List.mk_mem_enum_iff_getElem?.mp hpe, hp, hr⟩
  · rintro ⟨OP, hk, hp, hr⟩
    exact ⟨(k, OP), ⟨List.mk_mem_enum_iff_getElem?.mpr hk, hp, hr⟩, rfl⟩

/-- C2: committing a vector pack charges, for every unresolved operand
pack with a lane produced by it, a gather cost which is zero on
element-wise equality with the pack's ordered values, the single-source
permute shuffle cost on an equal-size permutation, and the fixed
constant 2 otherwise; such a pack is marked resolved when all of its
lanes are frozen afterwards.  (Operand packs hold produced values, never
stores, so a producing pack is not a store pack and the gather scan
runs.) -/
theorem advanceVP_gather_and_resolution (blk : BBlock) (tti : TTIModel)
    (F : Frontier) (VP : VectorPack) (OP : OperandPack)
    (hOP : OP ∈ F.unresolvedPacks)
    (hprod : producedBy VP OP = true)
    (hopnostore : ∀ i : Nat, VLane.inst i ∈ OP → (blk.inst i).isStore = false)
    (hvpstore : VP.isStore = true → ∀ i ∈ VP.elements, (blk.inst i).isStore = true) :
    (advanceVP blk tti F VP).snd =
      VP.cost + extractSum blk tti F VP +
      (F.unresolvedPacks.map (fun P =>
        if producedBy VP P = true then getGatherCost blk tti VP P else 0)).sum +
      (operandScan blk tti (advanceVP blk tti F VP).fst.free VP
        F.unresolvedPacks).fst ∧
    getGatherCost blk tti VP OP = gatherCostSpec blk tti VP OP ∧
    (resolvedOP (advanceVP blk tti F VP).fst.free OP = true →
      OP ∉ (advanceVP blk tti F VP).fst.unresolvedPacks) := by
  have hns : VP.isStore = false := by
    rcases hst : VP.isStore with _ | _
    · rfl
    · obtain ⟨i, hi, hie⟩ := producedBy_inst VP OP hprod
      have := hvpstore hst i hie
      rw [hopnostore i hi] at this
      exact absurd this (by simp)
  have hpk : (advanceBBIt blk
        ((sortDesc VP.replaced).foldl (freezeOneInst blk) F)).unresolvedPacks =
      F.unresolvedPacks := foldFreeze_packs blk _ F
  have hfree : (advanceVP blk tti F VP).fst.free =
      (advanceBBIt blk ((sortDesc VP.replaced).foldl (freezeOneInst blk) F)).free := rfl
  have hrfl : (advanceVP blk tti F VP).snd =
      VP.cost + extractSum blk tti F VP +
      (gatherScan blk tti
        (advanceBBIt blk ((sortDesc VP.replaced).foldl (freezeOneInst blk) F)).free VP
        (advanceBBIt blk
          ((sortDesc VP.replaced).foldl (freezeOneInst blk) F)).unresolvedPacks).fst +
      (operandScan blk tti
        (advanceBBIt blk ((sortDesc VP.replaced).foldl (freezeOneInst blk) F)).free VP
        (advanceBBIt blk
          ((sortDesc VP.replaced).foldl (freezeOneInst blk) F)).unresolvedPacks).fst := rfl
  have hres : (advanceVP blk tti F VP).fst.unresolvedPacks =
      sortPacks (removeIndices
        ((advanceBBIt blk
            ((sortDesc VP.replaced).foldl (freezeOneInst blk) F)).unresolvedPacks ++
          (operandScan blk tti
            (advanceBBIt blk ((sortDesc VP.replaced).foldl (freezeOneInst blk) F)).free VP
            (advanceBBIt blk
              ((sortDesc VP.replaced).foldl (freezeOneInst blk) F)).unresolvedPacks).snd)
        (gatherScan blk tti
          (advanceBBIt blk ((sortDesc VP.replaced).foldl (freezeOneInst blk) F)).free VP
          (advanceBBIt blk
            ((sortDesc VP.replaced).foldl (freezeOneInst blk) F)).unresolvedPacks).snd) := rfl
  rw [hpk] at hrfl hres
  refine ⟨?_, getGatherCost_eq_spec blk tti VP OP hprod, ?_⟩
  · rw [hfree, hrfl, gatherScan_cost blk tti _ VP F.unresolvedPacks hns]
  · intro hresolved
    rw [hfree] at hresolved
    rw [hres]
    intro hmem
    have hmem2 := (mem_sortBy _ _ _).mp hmem
    obtain ⟨p, hp, rfl, hnot⟩ := removeIndices_mem _ _ _ hmem2
    obtain ⟨k, OP'⟩ := p
    have hget := List.mk_mem_enum_iff_getElem?.mp hp
    rw [List.getElem?_append] at hget
    by_cases hklt : k < F.unresolvedPacks.length
    · rw [if_pos hklt] at hget
      refine hnot ((gatherScan_marked_iff blk tti _ VP _ k hns).mpr ?_)
      exact ⟨OP', hget, hprod, hresolved⟩
    · rw [if_neg hklt] at hget
      have hpush : (OP' : OperandPack) ∈
          (operandScan blk tti
            (advanceBBIt blk ((sortDesc VP.replaced).foldl (freezeOneInst blk) F)).free
            VP F.unresolvedPacks).snd := List.getElem?_mem hget
      have := operandScan_pushed_not_resolved blk tti _ VP _ _ hpush
      rw [hresolved] at this
      exact absurd this (by simp)

theorem advanceVP_gather_and_resolution_witness :
    [VLane.inst 0, VLane.inst 1] ∈ wF1.unresolvedPacks ∧
      producedBy wLoadVP [VLane.inst 0, VLane.inst 1] = true ∧
      getGatherCost wBlk wTTI wLoadVP [VLane.inst 0, VLane.inst 1] =
        gatherCostSpec wBlk wTTI wLoadVP [VLane.inst 0, VLane.inst 1] :=
  ⟨by decide, by decide,
    (advanceVP_gather_and_resolution wBlk wTTI wF1 wLoadVP
      [VLane.inst 0, VLane.inst 1] (by decide) (by decide)
      (by
        intro i hi
        simp only [List.mem_cons, List.not_mem_nil, or_false] at hi
        rcases hi with h | h
        · rw [show i = 0 from by injection h]
          decide
        · rw [show i = 1 from by injection h]
          decide)
      (by
        intro h
        exact absurd h (by decide))).2.1⟩

theorem removeIndices_nil {α : Type} (l : List α) : removeIndices l [] = l := by
  unfold removeIndices
  rw [show (fun (p : Nat × α) => !(([] : List Nat).contains p.fst)) =
      (fun _ => true) from by funext p; simp, List.filter_true, List.enum_map_snd]

theorem foldUrsStep_mem (free : Finset Nat) (l : List VLane) (acc : Finset Nat)
    (i : Nat) :
    i ∈ l.foldl (ursStep free) acc → i ∈ acc ∨ VLane.inst i ∈ l := by
  induction l generalizing acc with
  | nil => exact fun h => Or.inl h
  | cons lane rest ih =>
      intro h
      rw [List.foldl_cons] at h
      rcases ih _ h with h2 | h2
      · cases lane with
        | inst i2 =>
            simp only [ursStep] at h2
            by_cases hf : i2 ∈ free
            · rw [if_pos hf] at h2
              rcases Finset.mem_insert.mp h2 with rfl | h3
              · exact Or.inr (List.mem_cons_self _ _)
              · exact Or.inl h3
            · rw [if_neg hf] at h2
              exact Or.inl h2
        | undef => exact Or.inl h2
        | const c => exact Or.inl h2
        | arg a => exact Or.inl h2
        | xinst x => exact Or.inl h2
      · exact Or.inr (List.mem_cons_of_mem _ h2)

theorem foldFreeze_urs (blk : BBlock) (rs : List Nat) (F : Frontier) :
    (rs.foldl (freezeOneInst blk) F).unresolvedScalars ⊆ F.unresolvedScalars := by
  induction rs generalizing F with
  | nil => exact fun _ h => h
  | cons r rest ih =>
      intro i hi
      have := ih (freezeOneInst blk F r) hi
      exact Finset.mem_of_mem_erase this

/-- No store instruction is ever an unresolved scalar, along any sequence
of advance transitions (stores produce no value, so nothing marks them). -/
theorem store_not_unresolved (blk : BBlock) (tti : TTIModel)
    (hwf : WFStores blk) (F : Frontier) (hreach : Reachable blk tti F) :
    ∀ i : Nat, (blk.inst i).isStore = true → i ∉ F.unresolvedScalars := by
  induction hreach with
  | init =>
      intro i hst hmem
      rw [show (initialFrontier blk).unresolvedScalars =
          (blk.insts.enum.foldl initStep
            ⟨0, Finset.range blk.insts.length, ∅, ∅, []⟩).unresolvedScalars from rfl,
        foldInit_mem_urs] at hmem
      rcases hmem with h | ⟨p, hp, rfl, hu⟩
      · exact absurd h (Finset.not_mem_empty _)
      · obtain ⟨k, info⟩ := p
        have hget := List.mk_mem_enum_iff_getElem?.mp hp
        have hk : k < blk.insts.length := by
          by_contra hge
          rw [List.getElem?_eq_none (le_of_not_lt hge)] at hget
          exact Option.noConfusion hget
        have hinfo : info = blk.inst k := by
          have h2 := inst_getElem blk k hk
          rw [hget] at h2
          exact (Option.some.injEq _ _).mp h2
        subst hinfo
        have husers := hwf.1 k hk hst
        have hmem2 : UserRef.instOut ∈ (blk.inst k).users :=
          (ctorUnresolved_iff _).mp hu
        rw [husers] at hmem2
        exact absurd hmem2 (List.not_mem_nil _)
  | stepInst F I hr hfree husable ih =>
      intro i hst hmem
      have hres : (advanceInst blk tti F I).fst.unresolvedScalars =
          markUnresolvedOperands blk (advanceBBIt blk (freezeOneInst blk F I)) I := rfl
      rw [hres] at hmem
      rcases foldUrsStep_mem _ _ _ _ hmem with h | h
      · have h2 : i ∈ F.unresolvedScalars.erase I := h
        exact ih i hst (Finset.mem_of_mem_erase h2)
      · by_cases hI : I < blk.insts.length
        · have := hwf.2 I hI _ h
          simp only [laneNotStore, Bool.not_eq_eq_eq_not, Bool.not_true] at this
          rw [hst] at this
          exact absurd this (by simp)
        · have : (blk.inst I).operands = [] := by
            unfold BBlock.inst
            rw [List.getD_eq_default]
            exact le_of_not_lt hI
          rw [this] at h
          exact absurd h (List.not_mem_nil _)
  | stepVP F VP hr hok ih =>
      intro i hst hmem
      have hres : (advanceVP blk tti F VP).fst.unresolvedScalars =
          ((sortDesc VP.replaced).foldl (freezeOneInst blk) F).unresolvedScalars := rfl
      rw [hres] at hmem
      exact ih i hst (foldFreeze_urs blk _ F hmem)
  | stepShuffle F ST hr hout ih =>
      intro i hst hmem
      exact ih i hst hmem

/-- C9: committing a store pack charges no lane-extract cost for its
elements, resolves no unresolved operand pack and charges no gather cost
(the incremental cost is the pack cost plus only the operand-pack insert
payments, and every previously unresolved pack is still tracked
afterwards). -/
theorem advanceVP_store_pack_inert (blk : BBlock) (tti : TTIModel)
    (F : Frontier) (VP : VectorPack)
    (hwf : WFStores blk) (hreach : Reachable blk tti F)
    (hst : VP.isStore = true)
    (helems : ∀ i ∈ VP.elements, (blk.inst i).isStore = true)
    (hlanes : ∀ i : Nat, VLane.inst i ∈ VP.orderedValues → i ∈ VP.elements) :
    extractSum blk tti F VP = 0 ∧
    (advanceVP blk tti F VP).snd =
      VP.cost + (operandScan blk tti (advanceVP blk tti F VP).fst.free VP
        F.unresolvedPacks).fst ∧
    (∀ OP ∈ F.unresolvedPacks, OP ∈ (advanceVP blk tti F VP).fst.unresolvedPacks) := by
  have hinv := store_not_unresolved blk tti hwf F hreach
  have hext : extractSum blk tti F VP = 0 := by
    unfold extractSum
    refine List.sum_eq_zero ?_
    intro x hx
    rcases List.mem_map.mp hx with ⟨p, hp, rfl⟩
    cases hl : p.snd with
    | inst i =>
        have hmem : VLane.inst i ∈ VP.orderedValues := by
          rw [← hl]
          exact enum_snd_mem _ _ hp
        have : i ∉ F.unresolvedScalars := hinv i (helems i (hlanes i hmem))
        simp [hl, this]
    | undef => simp [hl]
    | const c => simp [hl]
    | arg a => simp [hl]
    | xinst x => simp [hl]
  have hpk : (advanceBBIt blk
        ((sortDesc VP.replaced).foldl (freezeOneInst blk) F)).unresolvedPacks =
      F.unresolvedPacks := foldFreeze_packs blk _ F
  have hgs : ∀ l : List OperandPack, gatherScan blk tti
      (advanceBBIt blk ((sortDesc VP.replaced).foldl (freezeOneInst blk) F)).free
      VP l = (0, []) := by
    intro l
    unfold gatherScan
    rw [if_pos hst]
  have hrfl : (advanceVP blk tti F VP).snd =
      VP.cost + extractSum blk tti F VP +
      (gatherScan blk tti
        (advanceBBIt blk ((sortDesc VP.replaced).foldl (freezeOneInst blk) F)).free VP
        (advanceBBIt blk
          ((sortDesc VP.replaced).foldl (freezeOneInst blk) F)).unresolvedPacks).fst +
      (operandScan blk tti
        (advanceBBIt blk ((sortDesc VP.replaced).foldl (freezeOneInst blk) F)).free VP
        (advanceBBIt blk
          ((sortDesc VP.replaced).foldl (freezeOneInst blk) F)).unresolvedPacks).fst := rfl
  have hfree : (advanceVP blk tti F VP).fst.free =
      (advanceBBIt blk ((sortDesc VP.replaced).foldl (freezeOneInst blk) F)).free := rfl
  have hres : (advanceVP blk tti F VP).fst.unresolvedPacks =
      sortPacks (removeIndices
        ((advanceBBIt blk
            ((sortDesc VP.replaced).foldl (freezeOneInst blk) F)).unresolvedPacks ++
          (operandScan blk tti
            (advanceBBIt blk ((sortDesc VP.replaced).foldl (freezeOneInst blk) F)).free VP
            (advanceBBIt blk
              ((sortDesc VP.replaced).foldl (freezeOneInst blk) F)).unresolvedPacks).snd)
        (gatherScan blk tti
          (advanceBBIt blk ((sortDesc VP.replaced).foldl (freezeOneInst blk) F)).free VP
          (advanceBBIt blk
            ((sortDesc VP.replaced).foldl (freezeOneInst blk) F)).unresolvedPacks).snd) := rfl
  rw [hpk] at hrfl hres
  rw [hgs] at hrfl hres
  refine ⟨hext, ?_, ?_⟩
  · rw [hfree, hrfl, hext]
    ring
  · intro OP hOP
    rw [hres, removeIndices_nil]
    exact (mem_sortBy _ _ _).mpr (List.mem_append.mpr (Or.inl hOP))

theorem advanceVP_store_pack_inert_witness :
    wVP.isStore = true ∧ extractSum wBlk wTTI (initialFrontier wBlk) wVP = 0 ∧
      (advanceVP wBlk wTTI (initialFrontier wBlk) wVP).snd =
        wVP.cost + (operandScan wBlk wTTI
          (advanceVP wBlk wTTI (initialFrontier wBlk) wVP).fst.free wVP
          (initialFrontier wBlk).unresolvedPacks).fst :=
  ⟨by decide,
    (advanceVP_store_pack_inert wBlk wTTI (initialFrontier wBlk) wVP
      (by unfold WFStores; decide) Reachable.init (by decide) (by decide)
      (by
        intro i hi
        simp only [wVP, createStorePack, List.map_cons, List.map_nil,
          List.mem_cons, List.not_mem_nil, or_false] at hi
        rcases hi with h | h
        · rw [show i = 2 from by injection h]
          decide
        · rw [show i = 3 from by injection h]
          decide)).1,
    (advanceVP_store_pack_inert wBlk wTTI (initialFrontier wBlk) wVP
      (by unfold WFStores; decide) Reachable.init (by decide) (by decide)
      (by
        intro i hi
        simp only [wVP, createStorePack, List.map_cons, List.map_nil,
          List.mem_cons, List.not_mem_nil, or_false] at hi
        rcases hi with h | h
        · rw [show i = 2 from by injection h]
          decide
        · rw [show i = 3 from by injection h]
          decide)).2.1⟩

theorem depUnion_mem_gen (dep : Nat → Finset Nat) (xs : List Nat) (s : Finset Nat)
    (x : Nat) :
    x ∈ xs.foldl (fun s a => s ∪ dep a) s ↔ x ∈ s ∨ ∃ a ∈ xs, x ∈ dep a := by
  induction xs generalizing s with
  | nil => simp
  | cons a rest ih =>
      rw [List.foldl_cons, ih]
      simp only [Finset.mem_union, List.mem_cons]
      constructor
      · rintro ((h | h) | ⟨b, hb, hx⟩)
        · exact Or.inl h
        · exact Or.inr ⟨a, Or.inl rfl, h⟩
        · exact Or.inr ⟨b, Or.inr hb, hx⟩
      · rintro (h | ⟨b, hb | hb, hx⟩)
        · exact Or.inl (Or.inl h)
        · subst hb
          exact Or.inl (Or.inr hx)
        · exact Or.inr ⟨b, hb, hx⟩

theorem depUnion_mem (dep : Nat → Finset Nat) (xs : List Nat) (x : Nat) :
    x ∈ depUnion dep xs ↔ ∃ a ∈ xs, x ∈ dep a := by
  unfold depUnion
  rw [depUnion_mem_gen]
  simp

theorem depUnion_append_one (dep : Nat → Finset Nat) (xs : List Nat) (b : Nat) :
    depUnion dep (xs ++ [b]) = depUnion dep xs ∪ dep b := by
  unfold depUnion
  rw [List.foldl_append]
  rfl

theorem checkIndependence_iff (dep : Nat → Finset Nat) (nxt : Nat)
    (accs : List Nat) :
    checkIndependence dep nxt accs.toFinset (depUnion dep accs) = true ↔
      ∀ a ∈ accs, a ≠ nxt ∧ a ∉ dep nxt ∧ nxt ∉ dep a := by
  unfold checkIndependence
  simp only [Bool.and_eq_true, decide_eq_true_eq, List.mem_toFinset,
    depUnion_mem, Finset.eq_empty_iff_forall_not_mem, Finset.mem_inter,
    List.mem_toFinset]
  constructor
  · rintro ⟨⟨h1, h2⟩, h3⟩ a ha
    refine ⟨fun heq => h1 (heq ▸ ha), fun hdep => h3 a ⟨hdep, ha⟩, ?_⟩
    intro hx
    exact h2 ⟨a, ha, hx⟩
  · intro h
    refine ⟨⟨?_, ?_⟩, ?_⟩
    · intro hmem
      exact (h nxt hmem).1 rfl
    · rintro ⟨a, ha, hx⟩
      exact (h a ha).2.2 hx
    · rintro a ⟨hdep, ha⟩
      exact (h a ha).2.1 hdep

theorem pairwiseIndep_append_one (dep : Nat → Finset Nat) (l : List Nat) (b : Nat) :
    pairwiseIndep dep (l ++ [b]) ↔
      pairwiseIndep dep l ∧ ∀ a ∈ l, a ≠ b ∧ a ∉ dep b ∧ b ∉ dep a := by
  unfold pairwiseIndep
  rw [List.pairwise_append]
  simp

theorem chainOf_append_one (succ : Nat → List Nat) (l : List Nat) (b last : Nat)
    (hlast : l.getLast? = some last) :
    isChainOf succ (l ++ [b]) ↔ isChainOf succ l ∧ b ∈ succ last := by
  unfold isChainOf
  rw [List.chain'_append]
  simp [hlast]

theorem enumMemChains_mem (succ : Nat → List Nat) (dep : Nat → Finset Nat)
    (VL : Nat) :
    ∀ (fuel : Nat) (accs xs : List Nat) (es ds : Finset Nat),
      accs ≠ [] → accs.length + fuel = VL + 1 → accs.length ≤ VL →
      isChainOf succ accs → pairwiseIndep dep accs →
      ((xs, es, ds) ∈ enumMemChains succ dep VL fuel accs accs.toFinset
          (depUnion dep accs) ↔
        ((∃ ext, xs = accs ++ ext) ∧ xs.length = VL ∧ isChainOf succ xs ∧
          pairwiseIndep dep xs ∧ es = xs.toFinset ∧ ds = depUnion dep xs)) := by
  intro fuel
  induction fuel with
  | zero =>
      intro accs xs es ds hne hfuel hle hchain hpair
      omega
  | succ f ih =>
      intro accs xs es ds hne hfuel hle hchain hpair
      by_cases hVL : accs.length = VL
      · rw [show enumMemChains succ dep VL (f + 1) accs accs.toFinset
            (depUnion dep accs) = [(accs, accs.toFinset, depUnion dep accs)] from by
          unfold enumMemChains
          rw [if_pos hVL]]
        simp only [List.mem_singleton, Prod.mk.injEq]
        constructor
        · rintro ⟨rfl, rfl, rfl⟩
          exact ⟨⟨[], by simp⟩, hVL, hchain, hpair, rfl, rfl⟩
        · rintro ⟨⟨ext, rfl⟩, hlen, -, -, rfl, rfl⟩
          have hext : ext = [] := by
            rw [List.length_append] at hlen
            have : ext.length = 0 := by omega
            exact List.length_eq_zero.mp this
          subst hext
          simp
      · have hlt : accs.length < VL := lt_of_le_of_ne hle hVL
        have hlast : accs.getLast? = some (accs.getLast hne) :=
          List.getLast?_eq_getLast accs hne
        rw [show enumMemChains succ dep VL (f + 1) accs accs.toFinset
            (depUnion dep accs) =
          ((succ (accs.getLast hne)).filter (fun nxt =>
              checkIndependence dep nxt accs.toFinset (depUnion dep accs))).flatMap
            (fun nxt =>
              enumMemChains succ dep VL f (accs ++ [nxt])
                (insert nxt accs.toFinset) (depUnion dep accs ∪ dep nxt)) from by
          conv_lhs => rw [enumMemChains]
          rw [if_neg hVL, hlast]]
        simp only [show ∀ nxt : Nat, insert nxt accs.toFinset = (accs ++ [nxt]).toFinset from
          fun nxt => by
            rw [List.toFinset_append, List.toFinset_cons, List.toFinset_nil]
            ext x
            simp [or_comm]]
        constructor
        · intro hmem
          obtain ⟨nxt, hnxt, hmem2⟩ := List.mem_flatMap.mp hmem
          obtain ⟨hsucc, hindep⟩ := List.mem_filter.mp hnxt
          have hcross := (checkIndependence_iff dep nxt accs).mp hindep
          rw [show depUnion dep accs ∪ dep nxt = depUnion dep (accs ++ [nxt]) from
            (depUnion_append_one dep accs nxt).symm] at hmem2
          have hih := ih (accs ++ [nxt]) xs es ds (by simp)
            (by rw [List.length_append]; simpa using by omega)
            (by rw [List.length_append]; simpa using by omega)
            ((chainOf_append_one succ accs nxt _ hlast).mpr ⟨hchain, hsucc⟩)
            ((pairwiseIndep_append_one dep accs nxt).mpr ⟨hpair, hcross⟩)
          obtain ⟨⟨ext, hxs⟩, hlen, hchx, hpx, hes, hds⟩ := hih.mp hmem2
          refine ⟨⟨nxt :: ext, by rw [hxs, List.append_assoc]; rfl⟩,
            hlen, hchx, hpx, hes, hds⟩
        · rintro ⟨⟨ext, rfl⟩, hlen, hchx, hpx, hes, hds⟩
          have hext_ne : ext ≠ [] := by
            intro h
            subst h
            simp at hlen
            omega
          obtain ⟨nxt, ext', rfl⟩ := List.exists_cons_of_ne_nil hext_ne
          have hchsplit := List.chain'_append.mp hchx
          have hstep : nxt ∈ succ (accs.getLast hne) := by
            have := hchsplit.2.2 (accs.getLast hne) hlast nxt rfl
            exact this
          have hpsplit := List.pairwise_append.mp hpx
          have hcross : ∀ a ∈ accs, a ≠ nxt ∧ a ∉ dep nxt ∧ nxt ∉ dep a :=
            fun a ha => hpsplit.2.2 a ha nxt (List.mem_cons_self _ _)
          refine List.mem_flatMap.mpr ⟨nxt, List.mem_filter.mpr
            ⟨hstep, (checkIndependence_iff dep nxt accs).mpr hcross⟩, ?_⟩
          rw [show depUnion dep accs ∪ dep nxt = depUnion dep (accs ++ [nxt]) from
            (depUnion_append_one dep accs nxt).symm]
          have hih := ih (accs ++ [nxt]) (accs ++ nxt :: ext') es ds (by simp)
            (by rw [List.length_append]; simpa using by omega)
            (by rw [List.length_append]; simpa using by omega)
            ((chainOf_append_one succ accs nxt _ hlast).mpr ⟨hchain, hstep⟩)
            ((pairwiseIndep_append_one dep accs nxt).mpr ⟨hpair, hcross⟩)
          refine hih.mpr ⟨⟨ext', by rw [List.append_assoc]; rfl⟩,
            hlen, hchx, hpx, hes, hds⟩

/-- C4: for every access A and lane count VL in {2,4,8,16,32}, the seed
enumeration emits one seed chain (handed to the pack factory) for exactly
the depth-first chains of length VL in the consecutive-access DAG
starting at A whose elements are pairwise independent under the local
dependence analysis; each carries exactly those VL elements and the union
of their depended sets. -/
theorem getSeedMemChains_spec (succ : Nat → List Nat) (dep : Nat → Finset Nat)
    (A VL : Nat) (hVL : VL ∈ ([2, 4, 8, 16, 32] : List Nat))
    (xs : List Nat) (es ds : Finset Nat) :
    (xs, es, ds) ∈ getSeedMemChains succ dep A VL ↔
      (xs.head? = some A ∧ xs.length = VL ∧ isChainOf succ xs ∧
        pairwiseIndep dep xs ∧ es = xs.toFinset ∧ ds = depUnion dep xs) := by
  have hVL2 : 2 ≤ VL := by
    simp only [List.mem_cons, List.not_mem_nil, or_false] at hVL
    rcases hVL with rfl | rfl | rfl | rfl | rfl <;> omega
  have hsets : ({A} : Finset Nat) = ([A] : List Nat).toFinset := by
    simp
  have hdep : dep A = depUnion dep [A] := by
    unfold depUnion
    simp
  have hmain := enumMemChains_mem succ dep VL VL [A] xs es ds (by simp)
    (by rw [List.length_singleton]; omega) (by rw [List.length_singleton]; omega)
    (by unfold isChainOf; exact List.chain'_singleton A)
    (by unfold pairwiseIndep; exact List.pairwise_singleton _ A)
  rw [show getSeedMemChains succ dep A VL =
      enumMemChains succ dep VL VL [A] ({A} : Finset Nat) (dep A) from rfl,
    hsets, hdep, hmain]
  constructor
  · rintro ⟨⟨ext, rfl⟩, h2, h3, h4, h5, h6⟩
    exact ⟨rfl, h2, h3, h4, h5, h6⟩
  · rintro ⟨h1, h2, h3, h4, h5, h6⟩
    cases xs with
    | nil => exact absurd h1 (by simp)
    | cons a t =>
        refine ⟨⟨t, ?_⟩, h2, h3, h4, h5, h6⟩
        have : a = A := by
          injection h1
        rw [this]
        rfl

theorem getSeedMemChains_spec_witness :
    (2 ∈ ([2, 4, 8, 16, 32] : List Nat)) ∧
      ([2, 3], ({2, 3} : Finset Nat), ({0, 1} : Finset Nat)) ∈
        getSeedMemChains wBlk.storeSucc wBlk.dep 2 2 ∧
      isChainOf wBlk.storeSucc [2, 3] ∧ pairwiseIndep wBlk.dep [2, 3] :=
  ⟨by decide,
    (getSeedMemChains_spec wBlk.storeSucc wBlk.dep 2 2 (by decide)
        [2, 3] {2, 3} {0, 1}).mpr
      ⟨by decide, by decide,
        by
          unfold isChainOf
          refine List.chain'_cons.mpr ⟨by decide, List.chain'_singleton _⟩,
        by unfold pairwiseIndep; decide,
        by decide, by unfold depUnion; decide⟩,
    by
      unfold isChainOf
      refine List.chain'_cons.mpr ⟨by decide, List.chain'_singleton _⟩,
    by unfold pairwiseIndep; decide⟩

theorem frontier_ctor_spec_witness :
    wBlk.insts ≠ [] ∧
      getNextFreeInst wBlk (initialFrontier wBlk) = some (wBlk.insts.length - 1) :=
  ⟨by decide, (frontier_ctor_spec wBlk).2.1 (by decide)⟩

theorem initialFrontier_no_packs (blk : BBlock) :
    (initialFrontier blk).unresolvedPacks = [] :=
  (foldInit_fixed _ _).2.2

theorem advanceInst_of_no_packs (blk : BBlock) (tti : TTIModel) (F : Frontier)
    (I : Nat) (h : F.unresolvedPacks = []) :
    (advanceInst blk tti F I).snd = 0 ∧
      (advanceInst blk tti F I).fst.unresolvedPacks = [] := by
  have h1 : (advanceBBIt blk (freezeOneInst blk F I)).unresolvedPacks = [] := h
  constructor
  · show (instPackScan blk tti I (advanceBBIt blk (freezeOneInst blk F I)).free
      (advanceBBIt blk (freezeOneInst blk F I)).unresolvedPacks).fst = 0
    rw [h1]
    rfl
  · show sortPacks (removeIndices
      (advanceBBIt blk (freezeOneInst blk F I)).unresolvedPacks
      (instPackScan blk tti I (advanceBBIt blk (freezeOneInst blk F I)).free
        (advanceBBIt blk (freezeOneInst blk F I)).unresolvedPacks).snd) = []
    rw [h1]
    rfl

theorem scalLoop_cost_of_no_packs (blk : BBlock) (tti : TTIModel) :
    ∀ (fuel : Nat) (F : Frontier) (c : ℚ), F.unresolvedPacks = [] →
      (scalLoop blk tti fuel F c).fst = c := by
  intro fuel
  induction fuel with
  | zero => intro F c _; rfl
  | succ fuel ih =>
    intro F c h
    rw [scalLoop]
    by_cases hc : scalCond F = true
    · rw [if_pos hc]
      cases hu : firstUsableInst F with
      | none => rfl
      | some I =>
          show (scalLoop blk tti fuel (advanceInst blk tti F I).fst
            (c + (advanceInst blk tti F I).snd)).fst = c
          have h2 := advanceInst_of_no_packs blk tti F I h
          rw [ih _ _ h2.2, h2.1, add_zero]
    · rw [if_neg hc]

theorem findExtensionPacks2_of_no_packs (blk : BBlock) (tti : TTIModel)
    (F : Frontier) (h : F.unresolvedPacks = []) :
    findExtensionPacks2 blk tti F = [] := by
  simp only [findExtensionPacks2, h]
  rfl

theorem dpSolve_none_of_no_packs (blk : BBlock) (tti : TTIModel) :
    ∀ (fuel : Nat) (F : Frontier), F.unresolvedPacks = [] →
      (dpSolve blk tti fuel F).snd = none := by
  intro fuel F h
  cases fuel with
  | zero => rfl
  | succ fuel =>
      rw [dpSolve, findExtensionPacks2_of_no_packs blk tti F h]
      rfl

theorem dpCommitLoop_of_no_packs (blk : BBlock) (tti : TTIModel) :
    ∀ (fuel : Nat) (F : Frontier) (c : ℚ) (pk : List VectorPack),
      F.unresolvedPacks = [] →
      dpCommitLoop blk tti fuel (F, c, pk) = (F, c, pk) := by
  intro fuel F c pk h
  cases fuel with
  | zero => rfl
  | succ fuel =>
      show (match (dpSolve blk tti (blk.insts.length + 1) F).snd with
        | none => (F, c, pk)
        | some vp =>
            dpCommitLoop blk tti fuel
              ((advanceVP blk tti F vp).fst, c + (advanceVP blk tti F vp).snd,
                tryAddPack pk vp)) = (F, c, pk)
      rw [dpSolve_none_of_no_packs blk tti _ F h]

theorem phase1Step_of_no_seed (blk : BBlock) (tti : TTIModel) (st : BUState)
    (p : Nat × Nat)
    (h : getSeedStorePack blk tti st.frt p.snd p.fst = none) :
    phase1Step blk tti st p = st := by
  unfold phase1Step
  rw [h]

theorem foldPhase1_of_no_seeds (blk : BBlock) (tti : TTIModel) :
    ∀ (ps : List (Nat × Nat)) (st : BUState), st.frt = initialFrontier blk →
      (∀ p ∈ ps, getSeedStorePack blk tti (initialFrontier blk) p.snd p.fst = none) →
      ps.foldl (phase1Step blk tti) st = st := by
  intro ps
  induction ps with
  | nil => intro st _ _; rfl
  | cons p rest ih =>
      intro st hst hseeds
      have h : getSeedStorePack blk tti st.frt p.snd p.fst = none := by
        rw [hst]; exact hseeds p (List.mem_cons_self p rest)
      rw [List.foldl_cons, phase1Step_of_no_seed blk tti st p h,
        ih st hst (fun q hq => hseeds q (List.mem_cons_of_mem p hq))]

/-- C8: for a basic block in which no seed store pack is found — none of
the store-DAG keys yields a seed at any of the lane counts the seed loop
tries — the bottom-up optimizer commits no vector packs and returns cost
0 (the resulting plan is empty). -/
theorem optimizeBottomUp_no_seeds (blk : BBlock) (tti : TTIModel)
    (hseeds : ∀ SI ∈ sortedStores blk, ∀ VL ∈ vlList,
      getSeedStorePack blk tti (initialFrontier blk) SI VL = none) :
    (optimizeBottomUp blk tti).fst = 0 ∧
      (optimizeBottomUp blk tti).snd.fst = [] := by
  have h0 : (initialFrontier blk).unresolvedPacks = [] := (foldInit_fixed _ _).2.2
  have hst : (vlList.flatMap
        (fun i => (sortedStores blk).map (fun SI => (i, SI)))).foldl
        (phase1Step blk tti) ⟨initialFrontier blk, 0, [], 0⟩ =
      (⟨initialFrontier blk, 0, [], 0⟩ : BUState) := by
    refine foldPhase1_of_no_seeds blk tti _ _ rfl ?_
    intro p hp
    rcases List.mem_flatMap.mp hp with ⟨i, hi, hpm⟩
    rcases List.mem_map.mp hpm with ⟨SI, hSI, rfl⟩
    exact hseeds SI hSI i hi
  have hr2 : dpCommitLoop blk tti (blk.insts.length + 1)
      (initialFrontier blk, 0, []) = (initialFrontier blk, 0, []) :=
    dpCommitLoop_of_no_packs blk tti _ _ _ _ h0
  simp only [optimizeBottomUp, hst, hr2]
  exact ⟨scalLoop_cost_of_no_packs blk tti _ _ _ h0, trivial⟩

theorem optimizeBottomUp_no_seeds_witness :
    (optimizeBottomUp wStoreBlk wTTI).fst = 0 ∧
      (optimizeBottomUp wStoreBlk wTTI).snd.fst = [] :=
  optimizeBottomUp_no_seeds wStoreBlk wTTI (by decide)

theorem solUpdate_cost_le_left (s t : HSolution) : (solUpdate s t).cost ≤ s.cost := by
  unfold solUpdate
  split_ifs with h
  · exact le_of_lt h
  · exact le_refl _

theorem solUpdate_cost_le_right (s t : HSolution) : (solUpdate s t).cost ≤ t.cost := by
  unfold solUpdate
  split_ifs with h
  · exact le_refl _
  · exact le_of_not_lt h

theorem solUpdate_cost_cases (s t : HSolution) :
    (solUpdate s t).cost = s.cost ∨ (solUpdate s t).cost = t.cost := by
  unfold solUpdate
  split_ifs
  · exact Or.inr rfl
  · exact Or.inl rfl

theorem foldSol_cost_le_init {α : Type} (f : α → HSolution) :
    ∀ (l : List α) (init : HSolution),
      ((l.foldl (fun s x => solUpdate s (f x)) init)).cost ≤ init.cost := by
  intro l
  induction l with
  | nil => intro init; exact le_refl _
  | cons a rest ih =>
      intro init
      exact le_trans (ih _) (solUpdate_cost_le_left init (f a))

theorem foldSol_cost_le_mem {α : Type} (f : α → HSolution) :
    ∀ (l : List α) (init : HSolution) (x : α), x ∈ l →
      ((l.foldl (fun s x => solUpdate s (f x)) init)).cost ≤ (f x).cost := by
  intro l
  induction l with
  | nil => intro _ x hx; exact absurd hx (List.not_mem_nil x)
  | cons a rest ih =>
      intro init x hx
      rw [List.foldl_cons]
      rcases List.mem_cons.mp hx with rfl | hx
      · exact le_trans (foldSol_cost_le_init f rest _)
          (solUpdate_cost_le_right init (f x))
      · exact ih _ x hx

theorem foldSol_cost_attain {α : Type} (f : α → HSolution) :
    ∀ (l : List α) (init : HSolution),
      ((l.foldl (fun s x => solUpdate s (f x)) init)).cost = init.cost ∨
        ∃ x ∈ l, ((l.foldl (fun s x => solUpdate s (f x)) init)).cost = (f x).cost := by
  intro l
  induction l with
  | nil => intro init; exact Or.inl rfl
  | cons a rest ih =>
      intro init
      rw [List.foldl_cons]
      rcases ih (solUpdate init (f a)) with h | ⟨x, hx, h⟩
      · rcases solUpdate_cost_cases init (f a) with h2 | h2
        · exact Or.inl (h.trans h2)
        · exact Or.inr ⟨a, List.mem_cons_self a rest, h.trans h2⟩
      · exact Or.inr ⟨x, List.mem_cons_of_mem a hx, h⟩

theorem zip_self_map {α β : Type} (g : α → β) :
    ∀ l : List α, l.zip (l.map g) = l.map (fun a => (a, g a)) := by
  intro l
  induction l with
  | nil => rfl
  | cons a rest ih => simp only [List.map_cons, List.zip_cons_cons, ih]

theorem hCostVPs_eq_map (M : HModel) (S : Nat → List VectorPack) (fuel : Nat) :
    ∀ L : List VectorPack, hCostVPs M S fuel L = L.map (hCostVP M S fuel) := by
  intro L
  induction L with
  | nil => simp only [hCostVPs, List.map_nil]
  | cons vp rest ih => rw [hCostVPs, List.map_cons, ih]

theorem candOptionVal_cost_mono (OP : OperandPack) (elems : Finset Nat) (extra : ℚ)
    (vp : VectorPack) (c c' : ℚ) (h : c' ≤ c) :
    (candOptionVal OP elems extra vp c').cost ≤ (candOptionVal OP elems extra vp c).cost := by
  unfold candOptionVal
  split_ifs
  · exact add_le_add_right (add_le_add_right h _) _
  · refine add_le_add_right (add_le_add_right ?_ _) _
    exact mul_le_mul_of_nonneg_right h
      (div_nonneg (Nat.cast_nonneg _) (Nat.cast_nonneg _))

theorem candScanG_cons (OP : OperandPack) (elems : Finset Nat) (extra : ℚ)
    (vp : VectorPack) (c : ℚ) (rest : List (VectorPack × ℚ))
    (visited : List VectorPack) (sol : HSolution) :
    candScanG OP elems extra ((vp, c) :: rest) visited sol =
      if vp ∈ visited then candScanG OP elems extra rest visited sol
      else if ¬ vp.isLoad = true then
        candScanG OP elems extra rest (visited ++ [vp]) sol
      else
        candScanG OP elems extra rest (visited ++ [vp])
          (solUpdate sol (candOptionVal OP elems extra vp c)) := rfl

theorem candScan_cost_le_init (OP : OperandPack) (elems : Finset Nat) (extra : ℚ) :
    ∀ (L : List (VectorPack × ℚ)) (visited : List VectorPack) (sol : HSolution),
      (candScanG OP elems extra L visited sol).cost ≤ sol.cost := by
  intro L
  induction L with
  | nil => intro visited sol; exact le_refl _
  | cons p rest ih =>
      intro visited sol
      obtain ⟨vp, c⟩ := p
      rw [candScanG_cons]
      split_ifs with h1 h2
      · exact ih visited sol
      · exact le_trans (ih _ _) (solUpdate_cost_le_left _ _)
      · exact ih _ sol

theorem candScan_cost_le_mem (OP : OperandPack) (elems : Finset Nat) (extra : ℚ)
    (f : VectorPack → ℚ) :
    ∀ (cl : List VectorPack) (visited : List VectorPack) (sol : HSolution)
      (vp : VectorPack), vp ∈ cl → vp.isLoad = true → vp ∉ visited →
      (candScanG OP elems extra (cl.map (fun q => (q, f q))) visited sol).cost ≤
        (candOptionVal OP elems extra vp (f vp)).cost := by
  intro cl
  induction cl with
  | nil => intro _ _ vp hvp _ _; exact absurd hvp (List.not_mem_nil vp)
  | cons q rest ih =>
      intro visited sol vp hvp hload hnv
      rw [List.map_cons, candScanG_cons]
      by_cases h1 : q ∈ visited
      · rw [if_pos h1]
        have hvp2 : vp ∈ rest := by
          rcases List.mem_cons.mp hvp with rfl | h
          · exact absurd h1 hnv
          · exact h
        exact ih visited sol vp hvp2 hload hnv
      · rw [if_neg h1]
        by_cases h2 : q.isLoad = true
        · rw [if_neg (fun hc => hc h2)]
          by_cases heq : vp = q
          · subst heq
            exact le_trans (candScan_cost_le_init OP elems extra _ _ _)
              (solUpdate_cost_le_right _ _)
          · have hvp2 : vp ∈ rest := by
              rcases List.mem_cons.mp hvp with h | h
              · exact absurd h heq
              · exact h
            have hnv2 : vp ∉ visited ++ [q] := by
              intro hm
              rcases List.mem_append.mp hm with h | h
              · exact hnv h
              · exact heq (List.mem_singleton.mp h)
            exact ih _ _ vp hvp2 hload hnv2
        · rw [if_pos h2]
          have heq : vp ≠ q := fun he => h2 (he ▸ hload)
          have hvp2 : vp ∈ rest := by
            rcases List.mem_cons.mp hvp with h | h
            · exact absurd h heq
            · exact h
          have hnv2 : vp ∉ visited ++ [q] := by
            intro hm
            rcases List.mem_append.mp hm with h | h
            · exact hnv h
            · exact heq (List.mem_singleton.mp h)
          exact ih _ _ vp hvp2 hload hnv2

theorem candScan_cost_attain (OP : OperandPack) (elems : Finset Nat) (extra : ℚ)
    (f : VectorPack → ℚ) :
    ∀ (cl : List VectorPack) (visited : List VectorPack) (sol : HSolution),
      (candScanG OP elems extra (cl.map (fun q => (q, f q))) visited sol).cost =
          sol.cost ∨
        ∃ vp ∈ cl, vp.isLoad = true ∧
          (candScanG OP elems extra (cl.map (fun q => (q, f q))) visited sol).cost =
            (candOptionVal OP elems extra vp (f vp)).cost := by
  intro cl
  induction cl with
  | nil => intro visited sol; exact Or.inl rfl
  | cons q rest ih =>
      intro visited sol
      rw [List.map_cons, candScanG_cons]
      split_ifs with h1 h2
      · rcases ih visited sol with h | ⟨vp, hvp, hl, h⟩
        · exact Or.inl h
        · exact Or.inr ⟨vp, List.mem_cons_of_mem q hvp, hl, h⟩
      · rcases ih (visited ++ [q])
            (solUpdate sol (candOptionVal OP elems extra q (f q))) with h | ⟨vp, hvp, hl, h⟩
        · rcases solUpdate_cost_cases sol (candOptionVal OP elems extra q (f q)) with
            h3 | h3
          · exact Or.inl (h.trans h3)
          · exact Or.inr ⟨q, List.mem_cons_self q rest, h2, h.trans h3⟩
        · exact Or.inr ⟨vp, List.mem_cons_of_mem q hvp, hl, h⟩
      · rcases ih (visited ++ [q]) sol with h | ⟨vp, hvp, hl, h⟩
        · exact Or.inl h
        · exact Or.inr ⟨vp, List.mem_cons_of_mem q hvp, hl, h⟩

theorem zip_hCostVPs_eq_map (M : HModel) (T : Nat → List VectorPack) (fuel : Nat)
    (L : List VectorPack) :
    L.zip (hCostVPs M T fuel L) = L.map (fun q => (q, hCostVP M T fuel q)) := by
  rw [hCostVPs_eq_map, zip_self_map]

theorem hSolveCosts_sum_le (M : HModel) (S S' : Nat → List VectorPack) (fuel : Nat)
    (h : ∀ OP, (hSolve M S' fuel OP).cost ≤ (hSolve M S fuel OP).cost) :
    ∀ ops : List OperandPack,
      (hSolveCosts M S' fuel ops).sum ≤ (hSolveCosts M S fuel ops).sum := by
  intro ops
  induction ops with
  | nil => simp only [hSolveCosts]; exact le_refl _
  | cons op rest ih =>
      simp only [hSolveCosts, List.sum_cons]
      exact add_le_add (h op) ih

theorem candScan_full_mono (M : HModel) (S S' : Nat → List VectorPack) (fuel : Nat)
    (hcost : ∀ VP, hCostVP M S' fuel VP ≤ hCostVP M S fuel VP)
    (OP : OperandPack) (elems : Finset Nat) (extra : ℚ) (sol1 : HSolution)
    (prods : List VectorPack) (cl cl' : List VectorPack)
    (hcl : ∀ vp ∈ cl, vp ∈ cl') :
    (candScanG OP elems extra (cl'.zip (hCostVPs M S' fuel cl')) []
        ((prods.zip (hCostVPs M S' fuel prods)).foldl
          (fun s p => solUpdate s ⟨p.snd + extra, [p.fst]⟩) sol1)).cost ≤
      (candScanG OP elems extra (cl.zip (hCostVPs M S fuel cl)) []
        ((prods.zip (hCostVPs M S fuel prods)).foldl
          (fun s p => solUpdate s ⟨p.snd + extra, [p.fst]⟩) sol1)).cost := by
  rw [zip_hCostVPs_eq_map M S' fuel cl', zip_hCostVPs_eq_map M S fuel cl,
    zip_hCostVPs_eq_map M S' fuel prods, zip_hCostVPs_eq_map M S fuel prods]
  have hsol2 :
      ((prods.map (fun q => (q, hCostVP M S' fuel q))).foldl
          (fun s p => solUpdate s ⟨p.snd + extra, [p.fst]⟩) sol1).cost ≤
        ((prods.map (fun q => (q, hCostVP M S fuel q))).foldl
          (fun s p => solUpdate s ⟨p.snd + extra, [p.fst]⟩) sol1).cost := by
    rcases foldSol_cost_attain
        (fun p : VectorPack × ℚ => (⟨p.snd + extra, [p.fst]⟩ : HSolution))
        (prods.map (fun q => (q, hCostVP M S fuel q))) sol1 with h | ⟨x, hx, h⟩
    · exact le_trans
        (foldSol_cost_le_init
          (fun p : VectorPack × ℚ => (⟨p.snd + extra, [p.fst]⟩ : HSolution)) _ _)
        (le_of_eq h.symm)
    · obtain ⟨q, hq, rfl⟩ := List.mem_map.mp hx
      refine le_trans
        (foldSol_cost_le_mem
          (fun p : VectorPack × ℚ => (⟨p.snd + extra, [p.fst]⟩ : HSolution)) _ _
          (q, hCostVP M S' fuel q) (List.mem_map_of_mem _ hq)) ?_
      refine le_trans (add_le_add_right (hcost q) extra) (le_of_eq h.symm)
  rcases candScan_cost_attain OP elems extra (hCostVP M S fuel) cl []
      ((prods.map (fun q => (q, hCostVP M S fuel q))).foldl
        (fun s p => solUpdate s ⟨p.snd + extra, [p.fst]⟩) sol1) with h | ⟨vp, hvp, hl, h⟩
  · exact le_trans (candScan_cost_le_init OP elems extra _ _ _)
      (le_trans hsol2 (le_of_eq h.symm))
  · refine le_trans
      (candScan_cost_le_mem OP elems extra (hCostVP M S' fuel) cl' _ _ vp
        (hcl vp hvp) hl (List.not_mem_nil vp)) ?_
    exact le_trans (candOptionVal_cost_mono OP elems extra vp _ _ (hcost vp))
      (le_of_eq h.symm)

theorem hMonoAux (M : HModel) (S S' : Nat → List VectorPack)
    (hsub : ∀ i, ∀ vp ∈ S i, vp ∈ S' i) :
    ∀ fuel : Nat,
      (∀ VP, hCostVP M S' fuel VP ≤ hCostVP M S fuel VP) ∧
      (∀ OP, (hSolve M S' fuel OP).cost ≤ (hSolve M S fuel OP).cost) := by
  intro fuel
  induction fuel with
  | zero =>
      constructor
      · intro VP
        simp only [hCostVP]
        exact le_refl _
      · intro OP
        simp only [hSolve]
        exact le_refl _
  | succ fuel ih =>
      have hVP : ∀ VP, hCostVP M S' (fuel + 1) VP ≤ hCostVP M S (fuel + 1) VP := by
        intro VP
        simp only [hCostVP]
        exact add_le_add_left (hSolveCosts_sum_le M S S' fuel ih.2 VP.operandPacks) _
      refine ⟨hVP, ?_⟩
      intro OP
      simp only [hSolve]
      by_cases hb : hBaseline M OP = 0
      · rw [if_pos hb, if_pos hb]
      · rw [if_neg hb, if_neg hb]
        refine candScan_full_mono M S S' fuel ih.1 OP _ _ _ _ _ _ ?_
        intro vp hvp
        rcases List.mem_flatMap.mp hvp with ⟨i, hi, hmem⟩
        exact List.mem_flatMap.mpr ⟨i, hi, hsub i vp hmem⟩

/-- C7: Heuristic::solve is monotone in the candidate pack set: with a
pointwise larger Inst2Packs index, the returned cost never increases. -/
theorem hSolve_monotone (M : HModel) (S S' : Nat → List VectorPack)
    (hsub : ∀ i, ∀ vp ∈ S i, vp ∈ S' i) (fuel : Nat) (OP : OperandPack) :
    (hSolve M S' fuel OP).cost ≤ (hSolve M S fuel OP).cost :=
  (hMonoAux M S S' hsub fuel).2 OP

theorem hSolve_monotone_witness :
    (hSolve wHM (fun _ => [wLoadVP]) 2 [VLane.inst 0, VLane.inst 1]).cost ≤
      (hSolve wHM (fun _ => ([] : List VectorPack)) 2
        [VLane.inst 0, VLane.inst 1]).cost :=
  hSolve_monotone wHM (fun _ => ([] : List VectorPack)) (fun _ => [wLoadVP])
    (fun _ vp h => absurd h (List.not_mem_nil vp)) 2 [VLane.inst 0, VLane.inst 1]
